import Mathlib

/-!
Shallow embedding of the chess rules engine in `src/chess.rs` (repository
Zillorz/chess), together with theorems settling the frozen claims about it.

Modelling conventions:
* The board is the 64-slot array `[Option<Piece>; 64]`, embedded as a
  `List (Option Piece)`; reads out of range yield `none` and writes out of
  range are no-ops (all code paths exercised by the claims bounds-check
  their indices first, as the Rust code does).
* Rust functions that can panic (`Option::unwrap`, slice indexing) are
  embedded as `Option`-returning functions; `none` models the panic.
* The Rust machine integers `u8` (half-move clock) and `u16` (full-move
  counter) are embedded as `Nat` with explicit reduction mod `2^8` / `2^16`
  at the increment sites, and parse-time bounds of 255 / 65535.
* `is_legal_checkless` and `is_in_check` are mutually recursive in the
  source (the castling branch of the former consults the latter).  The
  recursion is broken by `mcheckless`, which abstracts the check oracle.
  `is_in_check` only ever evaluates moves of non-king pieces, for which the
  oracle is never consulted (`mcheckless_oracle_irrel` below), so
  instantiating the oracle with a dummy inside `is_in_check` is faithful;
  `is_legal_checkless` then ties the knot with the real `is_in_check`.
-/

set_option maxRecDepth 4000

set_option maxHeartbeats 1000000

namespace Chess

/-- The four castling-right bits of the source's `CastleFlags`. -/
structure Castle where
  wk : Bool
  wq : Bool
  bk : Bool
  bq : Bool
deriving DecidableEq, Repr

/-- `CastleFlags::ALL`. -/
def Castle.all : Castle := ⟨true, true, true, true⟩

/-- `CastleFlags::NONE`. -/
def Castle.none : Castle := ⟨false, false, false, false⟩

/-- `Color` from the source. -/
inductive Color where
  | White
  | Black
deriving DecidableEq, Repr

/-- `Not for Color` (the `!` operator) from the source. -/
def Color.opp : Color → Color
  | .White => .Black
  | .Black => .White

/-- The twelve piece variants of the source's `Piece`. -/
inductive Piece where
  | WPawn | WKnight | WBishop | WRook | WQueen | WKing
  | BPawn | BKnight | BBishop | BRook | BQueen | BKing
deriving DecidableEq, Repr

/-- `Piece::color` from the source. -/
def Piece.color : Piece → Color
  | .WPawn | .WKnight | .WBishop | .WRook | .WQueen | .WKing => .White
  | .BPawn | .BKnight | .BBishop | .BRook | .BQueen | .BKing => .Black

/-- `Promotion` from the source. -/
inductive Promotion where
  | Knight | Bishop | Rook | Queen
deriving DecidableEq, Repr

/-- `Piece::from_promotion` from the source. -/
def Piece.from_promotion : Promotion → Color → Piece
  | .Knight, .White => .WKnight
  | .Bishop, .White => .WBishop
  | .Rook,   .White => .WRook
  | .Queen,  .White => .WQueen
  | .Knight, .Black => .BKnight
  | .Bishop, .Black => .BBishop
  | .Rook,   .Black => .BRook
  | .Queen,  .Black => .BQueen

/-- `Piece::from_letter` from the source. -/
def Piece.from_letter (c : Char) : Option Piece :=
  if c = 'p' then some .BPawn
  else if c = 'n' then some .BKnight
  else if c = 'b' then some .BBishop
  else if c = 'r' then some .BRook
  else if c = 'q' then some .BQueen
  else if c = 'k' then some .BKing
  else if c = 'P' then some .WPawn
  else if c = 'N' then some .WKnight
  else if c = 'B' then some .WBishop
  else if c = 'R' then some .WRook
  else if c = 'Q' then some .WQueen
  else if c = 'K' then some .WKing
  else none

/-- `Piece::to_letter` from the source. -/
def Piece.to_letter : Piece → Char
  | .BPawn => 'p'
  | .BKnight => 'n'
  | .BBishop => 'b'
  | .BRook => 'r'
  | .BQueen => 'q'
  | .BKing => 'k'
  | .WPawn => 'P'
  | .WKnight => 'N'
  | .WBishop => 'B'
  | .WRook => 'R'
  | .WQueen => 'Q'
  | .WKing => 'K'

/-- `Piece::can_move` from the source: the geometric movement predicate on
relative file/rank deltas (pawns always `true`, castling not covered). -/
def Piece.can_move (p : Piece) (rx ry : Int) : Prop :=
  match p with
  | .WPawn | .BPawn => True
  | .WKnight | .BKnight =>
      (rx.natAbs = 2 ∧ ry.natAbs = 1) ∨ (ry.natAbs = 2 ∧ rx.natAbs = 1)
  | .WBishop | .BBishop => rx.natAbs = ry.natAbs
  | .WRook | .BRook => (rx = 0 ∧ ry ≠ 0) ∨ (rx ≠ 0 ∧ ry = 0)
  | .WKing | .BKing => rx.natAbs ≤ 1 ∧ ry.natAbs ≤ 1
  | .WQueen | .BQueen =>
      (rx = 0 ∧ ry ≠ 0) ∨ (rx ≠ 0 ∧ ry = 0) ∨ rx.natAbs = ry.natAbs

instance (p : Piece) (rx ry : Int) : Decidable (p.can_move rx ry) := by
  unfold Piece.can_move; cases p <;> infer_instance

/-- The board `[Option<Piece>; 64]`, as a list (length 64 in every state
the program constructs). -/
abbrev Bd := List (Option Piece)

/-- Array read `board[i]`; out-of-range reads give `none` (all call sites
the claims exercise are bounds-checked first, mirroring the source). -/
def Bd.get (b : Bd) (i : Nat) : Option Piece := List.getD b i none

/-- Array write `board[i] = v`; out-of-range writes are no-ops. -/
def Bd.set (b : Bd) (i : Nat) (v : Option Piece) : Bd := List.set b i v

/-- `EnPassant` from the source. -/
inductive EnPassant where
  | A2 | B2 | C2 | D2 | E2 | F2 | G2 | H2
  | A5 | B5 | C5 | D5 | E5 | F5 | G5 | H5
deriving DecidableEq, Repr

/-- `EnPassant::location` from the source. -/
def EnPassant.location : EnPassant → Nat
  | .A2 => 16 | .B2 => 17 | .C2 => 18 | .D2 => 19
  | .E2 => 20 | .F2 => 21 | .G2 => 22 | .H2 => 23
  | .A5 => 40 | .B5 => 41 | .C5 => 42 | .D5 => 43
  | .E5 => 44 | .F5 => 45 | .G5 => 46 | .H5 => 47

/-- `EnPassant::from_pawn_location` from the source. -/
def EnPassant.from_pawn_location (l : Nat) : Option EnPassant :=
  if l = 8 then some .A2 else if l = 9 then some .B2
  else if l = 10 then some .C2 else if l = 11 then some .D2
  else if l = 12 then some .E2 else if l = 13 then some .F2
  else if l = 14 then some .G2 else if l = 15 then some .H2
  else if l = 48 then some .A5 else if l = 49 then some .B5
  else if l = 50 then some .C5 else if l = 51 then some .D5
  else if l = 52 then some .E5 else if l = 53 then some .F5
  else if l = 54 then some .G5 else if l = 55 then some .H5
  else none

/-- `EnPassant::from_take_location` from the source. -/
def EnPassant.from_take_location (l : Nat) : Option EnPassant :=
  if l = 16 then some .A2 else if l = 17 then some .B2
  else if l = 18 then some .C2 else if l = 19 then some .D2
  else if l = 20 then some .E2 else if l = 21 then some .F2
  else if l = 22 then some .G2 else if l = 23 then some .H2
  else if l = 40 then some .A5 else if l = 41 then some .B5
  else if l = 42 then some .C5 else if l = 43 then some .D5
  else if l = 44 then some .E5 else if l = 45 then some .F5
  else if l = 46 then some .G5 else if l = 47 then some .H5
  else none

/-- `EnPassant::pawn_lost_pos` from the source (uniformly `location + 8`). -/
def EnPassant.pawn_lost_pos (e : EnPassant) : Nat := e.location + 8

/-- `MoveResult` from the source. -/
inductive MoveResult where
  | Valid | Check | Checkmate | Stalemate | Draw
  | MissingPromotion | Illegal | Impossible
deriving DecidableEq, Repr

/-- `MoveResult::is_ok` from the source. -/
def MoveResult.is_ok : MoveResult → Bool
  | .Valid => true
  | .Check => true
  | .Checkmate => true
  | .Stalemate => true
  | .Draw => true
  | .MissingPromotion => false
  | .Illegal => false
  | .Impossible => false

/-- `Game` from the source: board, en-passant target, castling rights,
side to move, half-move clock (`u8`), full-move counter (`u16`). -/
structure Game where
  board : Bd
  en_passant : Option EnPassant
  castle : Castle
  turn : Color
  hm_clock : Nat
  fm_clock : Nat
deriving DecidableEq, Repr

/-- `move_unchecked`, stage 1: the full-move counter increments after
Black's move (`u16`). -/
def muFm (g : Game) : Game :=
  if g.turn = Color.Black then { g with fm_clock := (g.fm_clock + 1) % 65536 } else g

/-- `move_unchecked`, stage 2: for a pawn, perform the en-passant removal
(the source clears `en_p.pawn_lost_pos() = location + 8` uniformly),
update the en-passant offer and zero the half-move clock; for any other
piece clear the offer and increment the (8-bit) clock. -/
def muPawnEp (piece : Piece) (fr t : Nat) (g : Game) : Game :=
  if piece = Piece.BPawn ∨ piece = Piece.WPawn then
    let ga :=
      match g.en_passant with
      | some enp =>
          if enp.location = t
          then { g with board := g.board.set enp.pawn_lost_pos Option.none }
          else g
      | Option.none => g
    if ((t : Int) - (fr : Int)).natAbs = 16 ∧ (EnPassant.from_pawn_location fr).isSome
    then { ga with en_passant := EnPassant.from_pawn_location fr, hm_clock := 0 }
    else { ga with en_passant := Option.none, hm_clock := 0 }
  else { g with en_passant := Option.none, hm_clock := (g.hm_clock + 1) % 256 }

/-- `move_unchecked`, stage 3: forfeiting castling rights (the source
re-reads `board[from]` here, after the possible en-passant removal). -/
def muCastleRights (fr : Nat) (g : Game) : Game :=
  match g.board.get fr with
  | some Piece.WRook =>
      if fr = 0 then { g with castle := { g.castle with wq := false } }
      else if fr = 7 then { g with castle := { g.castle with wk := false } }
      else g
  | some Piece.WKing =>
      { g with castle := { g.castle with wk := false, wq := false } }
  | some Piece.BRook =>
      if fr = 56 then { g with castle := { g.castle with bq := false } }
      else if fr = 63 then { g with castle := { g.castle with bk := false } }
      else g
  | some Piece.BKing =>
      { g with castle := { g.castle with bk := false, bq := false } }
  | _ => g

/-- `move_unchecked`, stage 4: capturing a rook on a home square revokes
the corresponding right (any rook color triggers the square test). -/
def muRookCapRights (t : Nat) (g : Game) : Game :=
  if (g.board.get t = some Piece.BRook) ∨ (g.board.get t = some Piece.WRook) then
    if t = 0 then { g with castle := { g.castle with wq := false } }
    else if t = 7 then { g with castle := { g.castle with wk := false } }
    else if t = 56 then { g with castle := { g.castle with bq := false } }
    else if t = 63 then { g with castle := { g.castle with bk := false } }
    else g
  else g

/-- `move_unchecked`, stage 5: a capture (occupied destination) resets
the half-move clock. -/
def muCapClock (t : Nat) (g : Game) : Game :=
  if (g.board.get t).isSome then { g with hm_clock := 0 } else g

/-- `move_unchecked`, stage 6: board movement — promotion replacement,
castling rook relocation (sequenced board writes exactly as the source),
or the plain copy.  `piece` is the origin piece read at entry, while the
copies re-read the *current* board as the source does.

This is the value the source computes when its unchecked indexing stays
on the board.  The castling rook relocation indexes `board[from + 3]`
(king side) or `board[from - 4]` (queen side, a wrapping `usize`
subtraction) with no bounds check, so a two-file king move whose rook
index falls off the board makes the source panic; `muBoardChecked` below
adds exactly those panics (`none`), and every `some` it returns is this
value. -/
def muBoard (piece : Piece) (fr t : Nat) (promo : Option Promotion) (g : Game) : Game :=
  match promo with
  | some pr =>
      if (piece = Piece.BPawn ∨ piece = Piece.WPawn) ∧ (56 ≤ t ∨ t ≤ 7) then
        { g with board := g.board.set t (some (Piece.from_promotion pr g.turn)) }
      else
        if (piece = Piece.WKing ∨ piece = Piece.BKing) ∧ Nat.dist (t % 8) (fr % 8) = 2 then
          let rookFrom := if fr % 8 < t % 8 then fr + 3 else fr - 4
          let rookTo := if fr % 8 < t % 8 then t - 1 else t + 1
          let b1 := g.board.set t (g.board.get fr)
          let b2 := b1.set rookTo (b1.get rookFrom)
          { g with board := b2.set rookFrom Option.none }
        else { g with board := g.board.set t (g.board.get fr) }
  | Option.none =>
      if (piece = Piece.WKing ∨ piece = Piece.BKing) ∧ Nat.dist (t % 8) (fr % 8) = 2 then
        let rookFrom := if fr % 8 < t % 8 then fr + 3 else fr - 4
        let rookTo := if fr % 8 < t % 8 then t - 1 else t + 1
        let b1 := g.board.set t (g.board.get fr)
        let b2 := b1.set rookTo (b1.get rookFrom)
        { g with board := b2.set rookFrom Option.none }
      else { g with board := g.board.set t (g.board.get fr) }

/-- `Game::move_unchecked` from the source, as a state transformer: the
six sequential mutation blocks of the source, then the origin is cleared
and the turn flips.  The source returns `false` and leaves the game
untouched when the origin is empty; here that case returns the game
unchanged (the boolean result is not needed by any claim).

This total version is the completion value of the function.  The source
panics on an out-of-bounds board index — origin or destination off the
board, or a castling rook relocation whose rook index falls off the
board; `move_unchecked_checked` below carries those panics (`none`), and
`move_unchecked_checked_sound` proves that every completion agrees with
this version.  (The legality pipeline reaches this function only through
moves the pseudo-legal phase accepted, whose castling branch hard-codes
origins 4 and 60, so the claims about `is_legal_move` condition on that
pipeline's own completion.) -/
def move_unchecked (g0 : Game) (fr t : Nat) (promo : Option Promotion) : Game :=
  match g0.board.get fr with
  | Option.none => g0
  | some piece =>
    let g6 := muBoard piece fr t promo
                (muCapClock t (muRookCapRights t (muCastleRights fr
                  (muPawnEp piece fr t (muFm g0)))))
    { g6 with board := g6.board.set fr Option.none, turn := g6.turn.opp }

/-- Stage 6 with the source's array-bounds behavior explicit.  The
promotion branch and the plain copy write only `board[to]` (the caller
guards `to`); the castling rook relocation (`(piece == WKing || BKing) &&
(to % 8).abs_diff(from % 8) == 2`) additionally indexes
`board[from + 3]` (king side, panics when `from + 3 > 63`) or
`board[from - 4]` (queen side, the `usize` subtraction wraps below 4 to
an index `≥ 2^64 - 4`, panicking).  The relocation's other squares
(`to - 1` / `to + 1`) stay on the board whenever `to ≤ 63`, by the
two-file geometry.  `none` models the panic; on `some` the result is
exactly `muBoard`. -/
def muBoardChecked (piece : Piece) (fr t : Nat) (promo : Option Promotion)
    (g : Game) : Option Game :=
  if (piece = Piece.WKing ∨ piece = Piece.BKing) ∧ Nat.dist (t % 8) (fr % 8) = 2 then
    if (if fr % 8 < t % 8 then decide (fr + 3 ≤ 63) else decide (4 ≤ fr))
    then some (muBoard piece fr t promo g)
    else Option.none
  else some (muBoard piece fr t promo g)

/-- `Game::move_unchecked` with every unchecked board index explicit:
`self.board[from]` panics when `from > 63` (before the empty-origin
early return); once the origin is non-empty, stage 4 reads
`self.board[to]`, panicking when `to > 63`; stage 2's en-passant removal
writes `board[en_p.pawn_lost_pos()]`, which is always on the board
(`pawn_lost_pos_lt` below); and stage 6's rook relocation panics exactly
as `muBoardChecked` records.  `none` models the panic; every `some`
agrees with the total `move_unchecked`
(`move_unchecked_checked_sound`). -/
def move_unchecked_checked (g0 : Game) (fr t : Nat) (promo : Option Promotion) :
    Option Game :=
  if fr ≤ 63 then
    match g0.board.get fr with
    | Option.none => some g0
    | some piece =>
      if t ≤ 63 then
        match muBoardChecked piece fr t promo
                (muCapClock t (muRookCapRights t (muCastleRights fr
                  (muPawnEp piece fr t (muFm g0))))) with
        | Option.none => Option.none
        | some g6 =>
            some { g6 with board := g6.board.set fr Option.none, turn := g6.turn.opp }
      else Option.none
  else Option.none

/-- The path-tracing loop of `is_legal_checkless` (source lines 871-885):
walk unit steps from the square after the origin until the destination is
reached; any occupied or out-of-board intermediate square blocks the move
(`true` = move rejected).  The source's `while` loop runs at most 7 times
(the walk is along a line the geometry check has already validated), so a
fuel of 8 is exact. -/
def pathTrace (b : Bd) : Nat → Int → Int → Int → Int → Int → Int → Bool
  | 0, _, _, _, _, _, _ => false
  | fuel+1, ocx, ocy, nx, ny, rx, ry =>
    if ocx = nx ∧ ocy = ny then false
    else if ¬ (0 ≤ ocy ∧ ocy ≤ 7) ∨ ¬ (0 ≤ ocx ∧ ocx ≤ 7) then true
    else if (b.get (ocy * 8 + ocx).toNat).isSome then true
    else pathTrace b fuel (ocx + rx) (ocy + ry) nx ny rx ry

/-- `Game::is_legal_checkless` from the source, with the check-detection
routine it consults in the castling branch abstracted as `ick` (see the
header note on breaking the `is_legal_checkless`/`is_in_check` recursion).
`none` models a panic inside the consulted check oracle.  The source's
castling branch hard-codes squares 60/61/62... and 4/5/6... irrespective
of `fr`; that is kept as-is. -/
def mcheckless (ick : Game → Color → Option Bool) (g : Game) (fr t : Nat)
    (promo : Option Promotion) (kingCk : Bool) : Option MoveResult :=
  if 63 < fr ∨ 63 < t then some .Impossible else
  match g.board.get fr with
  | Option.none => some .Impossible
  | some piece =>
    if piece.color ≠ g.turn then some .Impossible else
    let ox : Int := (fr % 8 : Nat)
    let oy : Int := (fr / 8 : Nat)
    let nx : Int := (t % 8 : Nat)
    let ny : Int := (t / 8 : Nat)
    -- destination must not hold a same-side piece, nor (when `kingCk`) the
    -- black king -- the source tests `piece == Piece::BKing` only
    let dstBad : Bool :=
      match g.board.get t with
      | some q => decide (q.color = g.turn) || (kingCk && decide (q = Piece.BKing))
      | Option.none => false
    if dstBad then some .Illegal else
    -- the tail shared by the pawn branch and the generic branch:
    -- sliding path trace, double-step re-check, promotion requirement
    let tail : Option MoveResult :=
      if (piece = .BRook ∨ piece = .WRook ∨ piece = .BBishop ∨ piece = .WBishop ∨
          piece = .BQueen ∨ piece = .WQueen) ∧
         pathTrace g.board 8 (ox + (nx - ox).sign) (oy + (ny - oy).sign) nx ny
           (nx - ox).sign (ny - oy).sign = true then some .Illegal
      else if (ny - oy).natAbs = 2 ∧
              ((piece = .BPawn ∧ oy ≠ 6) ∨ (piece = .WPawn ∧ oy ≠ 1)) then some .Illegal
      else if ((piece = .BPawn ∧ ny = 0) ∨ (piece = .WPawn ∧ ny = 7)) ∧ promo = Option.none
        then some .MissingPromotion
      else some .Valid
    if piece = .BPawn ∨ piece = .WPawn then
      let rx := (nx - ox).natAbs
      let ry := (ny - oy).natAbs
      let pTake : Bool := rx == 1 && ry == 1 && (g.board.get t).isSome
      let pEnp : Bool := ((g.en_passant.map (fun x => decide (x.location = t))).getD false)
                          && rx == 1 && ry == 1
      let pReg : Bool := ry == 1 && rx == 0 && (g.board.get t).isNone
      let occupied : Bool := (g.board.get ((oy + (ny - oy).sign) * 8 + ox).toNat).isSome ||
                             (g.board.get t).isSome
      let pFirst : Bool := ry == 2 && rx == 0 &&
        (decide (piece = Piece.BPawn ∧ oy = 6) || decide (piece = Piece.WPawn ∧ oy = 1)) &&
        !occupied
      let dir : Bool := Bool.xor (decide (0 < ny - oy)) (decide (piece = Piece.BPawn))
      if !(pTake || pEnp || pReg || pFirst) || !dir then some .Illegal else tail
    else if (piece = .BKing ∨ piece = .WKing) ∧ (nx - ox).natAbs = 2 ∧ ny = oy then
      match ick g g.turn with
      | Option.none => Option.none
      | some true => some .Illegal
      | some false =>
        if piece = Piece.BKing ∧ nx - ox = 2 then
          if g.castle.bk = false then some .Illegal
          else if (g.board.get 61).isSome ∨ (g.board.get 62).isSome then some .Illegal
          else
            match ick (move_unchecked g 60 61 Option.none) g.turn with
            | Option.none => Option.none
            | some true => some .Illegal
            | some false => some .Valid
        else if piece = Piece.BKing ∧ nx - ox = -2 then
          if g.castle.bq = false then some .Illegal
          else if (g.board.get 57).isSome ∨ (g.board.get 58).isSome ∨
                  (g.board.get 59).isSome then some .Illegal
          else
            match ick (move_unchecked g 60 59 Option.none) g.turn with
            | Option.none => Option.none
            | some true => some .Illegal
            | some false => some .Valid
        else if piece = Piece.WKing ∧ nx - ox = 2 then
          if g.castle.wk = false then some .Illegal
          else if (g.board.get 5).isSome ∨ (g.board.get 6).isSome then some .Illegal
          else
            match ick (move_unchecked g 4 5 Option.none) g.turn with
            | Option.none => Option.none
            | some true => some .Illegal
            | some false => some .Valid
        else if piece = Piece.WKing ∧ nx - ox = -2 then
          if g.castle.wq = false then some .Illegal
          else if (g.board.get 1).isSome ∨ (g.board.get 2).isSome ∨
                  (g.board.get 3).isSome then some .Illegal
          else
            match ick (move_unchecked g 4 3 Option.none) g.turn with
            | Option.none => Option.none
            | some true => some .Illegal
            | some false => some .Valid
        else some .Illegal
    else if ¬ piece.can_move (nx - ox) (ny - oy) then some .Illegal
    else tail

/-- The trivial check oracle used inside `is_in_check`'s scan, where the
moving piece is never a king and the oracle is therefore never consulted
(`mcheckless_oracle_irrel`). -/
def dummyCk : Game → Color → Option Bool := fun _ _ => some false

/-- `Game::find_king`'s scan over the board array. -/
def find_king_aux (player : Color) : List (Option Piece) → Nat → Option Nat
  | [], _ => Option.none
  | o :: rest, i =>
    match o with
    | some p =>
        if p.color = player ∧ (p = Piece.WKing ∨ p = Piece.BKing) then some i
        else find_king_aux player rest (i+1)
    | Option.none => find_king_aux player rest (i+1)

/-- `Game::find_king` from the source: first square holding a king of the
given color. -/
def find_king (g : Game) (player : Color) : Option Nat := find_king_aux player g.board 0

/-- The scan of `Game::is_in_check`: some enemy non-king piece has a
pseudo-legal (king-capture permitted) move onto the king square, evaluated
with the side to move flipped to the enemy. -/
def inCheckScan (g2 : Game) (player : Color) (kpos : Nat) :
    List (Option Piece) → Nat → Bool
  | [], _ => false
  | o :: rest, i =>
    match o with
    | some piece =>
      if piece.color ≠ player ∧ piece ≠ Piece.WKing ∧ piece ≠ Piece.BKing then
        match mcheckless dummyCk g2 i kpos (some Promotion.Queen) false with
        | some MoveResult.Valid => true
        | _ => inCheckScan g2 player kpos rest (i+1)
      else inCheckScan g2 player kpos rest (i+1)
    | Option.none => inCheckScan g2 player kpos rest (i+1)

/-- `Game::is_in_check` from the source.  `none` models the
`find_king(...).unwrap()` panic when no king of the color is on the
board. -/
def is_in_check (g : Game) (player : Color) : Option Bool :=
  (find_king g player).map (fun kpos =>
    inCheckScan { g with turn := player.opp } player kpos g.board 0)

/-- `Game::is_legal_checkless` from the source: `mcheckless` with the real
check oracle. -/
def is_legal_checkless (g : Game) (fr t : Nat) (promo : Option Promotion)
    (kingCk : Bool) : Option MoveResult :=
  mcheckless is_in_check g fr t promo kingCk

/-- The `legal_move_wcheck` / `legal_move` closure shared (textually) by
`is_in_checkmate` and `all_legal_moves`: pseudo-legal with king capture
permitted and queen promotion supplied, then the move must not leave the
mover in check. -/
def lmw (g : Game) (fr t : Nat) : Option Bool :=
  match is_legal_checkless g fr t (some Promotion.Queen) false with
  | Option.none => Option.none
  | some MoveResult.Valid =>
      (is_in_check (move_unchecked g fr t (some Promotion.Queen)) g.turn).map (fun b => !b)
  | some _ => some false

/-- The threat-square walk of `is_in_checkmate` for sliding checkers
(source lines 518-530): `while ox != nx && oy != ny` — note the source's
`&&`, which stops the walk immediately for straight-line checkers.  At
most 7 squares are produced, so a fuel of 8 is exact. -/
def threatWalk : Nat → Int → Int → Int → Int → Int → Int → List Nat
  | 0, _, _, _, _, _, _ => []
  | fuel+1, ox, oy, nx, ny, rx, ry =>
    if ox ≠ nx ∧ oy ≠ ny then
      (oy * 8 + ox).toNat :: threatWalk fuel (ox + rx) (oy + ry) nx ny rx ry
    else []

/-- The board scan of `is_in_checkmate`: collects the threat squares of
every checking enemy piece and the positions of the mover's own non-king
pieces.  The source stores threat squares in a `HashSet`; a list is used
here (the block loop below is insensitive to order and multiplicity for
every property proved about it). -/
def cmScan (gflip : Game) (player : Color) (kpos : Nat) :
    List (Option Piece) → Nat → List Nat × List Nat
  | [], _ => ([], [])
  | o :: rest, i =>
    let r := cmScan gflip player kpos rest (i+1)
    match o with
    | Option.none => r
    | some piece =>
      if piece.color ≠ player ∧ piece ≠ Piece.WKing ∧ piece ≠ Piece.BKing then
        match mcheckless dummyCk gflip i kpos (some Promotion.Queen) false with
        | some MoveResult.Valid =>
          match piece with
          | Piece.WPawn | Piece.WKnight | Piece.BPawn | Piece.BKnight => (i :: r.1, r.2)
          | Piece.WBishop | Piece.WRook | Piece.WQueen
          | Piece.BBishop | Piece.BRook | Piece.BQueen =>
            (threatWalk 8 ((i % 8 : Nat) : Int) ((i / 8 : Nat) : Int)
               ((kpos % 8 : Nat) : Int) ((kpos / 8 : Nat) : Int)
               (((kpos % 8 : Nat) : Int) - ((i % 8 : Nat) : Int)).sign
               (((kpos / 8 : Nat) : Int) - ((i / 8 : Nat) : Int)).sign ++ r.1, r.2)
          | _ => r
        | _ => r
      else if piece.color = player ∧ piece ≠ Piece.WKing ∧ piece ≠ Piece.BKing then
        (r.1, i :: r.2)
      else r

/-- The king-escape accumulation `escapable |= ...` over a list of
destinations: every entry is evaluated (no break), `none` = panic. -/
def orSeq (f : Nat → Option Bool) : List Nat → Bool → Option Bool
  | [], acc => some acc
  | t :: ts, acc =>
    match f t with
    | Option.none => Option.none
    | some b => orSeq f ts (acc || b)

/-- The inner `for ts in &threat_squares` loop of `is_in_checkmate`:
evaluates, accumulates, and breaks as soon as the accumulator is true. -/
def blockInner (f : Nat → Nat → Option Bool) (s : Nat) :
    List Nat → Bool → Option Bool
  | [], acc => some acc
  | t :: ts, acc =>
    match f s t with
    | Option.none => Option.none
    | some b => if acc || b then some (acc || b) else blockInner f s ts (acc || b)

/-- The outer `for spos in block_pos` loop of `is_in_checkmate`. -/
def blockOuter (f : Nat → Nat → Option Bool) (threats : List Nat) :
    List Nat → Bool → Option Bool
  | [], acc => some acc
  | s :: ss, acc =>
    match blockInner f s threats acc with
    | Option.none => Option.none
    | some acc2 => blockOuter f threats ss acc2

/-- The eight king-step destinations tried by `is_in_checkmate`
(`saturating_add`/`saturating_sub` is `Nat` arithmetic). -/
def kingSteps (kpos : Nat) : List Nat :=
  [kpos+1, kpos-1, kpos+8, kpos-8, kpos-9, kpos-7, kpos+9, kpos+7]

/-- Positions of the mover's own non-king pieces, as collected by the
`is_in_checkmate` scan. -/
def cmBlocks (g : Game) (player : Color) (kpos : Nat) : List Nat :=
  (cmScan { g with turn := player.opp } player kpos g.board 0).2

/-- The threat squares collected by the `is_in_checkmate` scan, with the
en-passant target appended (the source inserts it into the set after the
king tries). -/
def cmThreats (g : Game) (player : Color) (kpos : Nat) : List Nat :=
  let ts0 := (cmScan { g with turn := player.opp } player kpos g.board 0).1
  match g.en_passant with
  | some e => ts0 ++ [e.location]
  | Option.none => ts0

/-- `Game::is_in_checkmate` from the source.  `none` models the
`find_king(...).unwrap()` panic and panics inside the speculative
evaluations. -/
def is_in_checkmate (g : Game) (player : Color) : Option Bool :=
  match find_king g player with
  | Option.none => Option.none
  | some kpos =>
    let gp := { g with turn := player }
    match orSeq (fun t => lmw gp kpos t) (kingSteps kpos) false with
    | Option.none => Option.none
    | some e1 =>
      match blockOuter (fun s t => lmw gp s t) (cmThreats g player kpos)
            (cmBlocks g player kpos) e1 with
      | Option.none => Option.none
      | some esc => some (!esc)

/-- The `pieces` vector of `is_draw`: board squares holding a piece, with
their indices, in board order. -/
def piecesAux : List (Option Piece) → Nat → List (Nat × Piece)
  | [], _ => []
  | o :: rest, i =>
    match o with
    | some p => (i, p) :: piecesAux rest (i+1)
    | Option.none => piecesAux rest (i+1)

/-- The `is_draw` filter predicate (`x.1 != BKing && x.1 != WKing` in the
source). -/
def nonKingP (x : Nat × Piece) : Bool :=
  decide (x.2 ≠ Piece.BKing ∧ x.2 ≠ Piece.WKing)

/-- The minor-piece test of `is_draw`'s 3-piece case. -/
def isMinor (p : Piece) : Bool :=
  decide (p = Piece.WKnight ∨ p = Piece.WBishop ∨
          p = Piece.BKnight ∨ p = Piece.BBishop)

/-- The bishop-pair test of `is_draw`'s 4-piece case: both bishops, of
opposite colors, on same-parity squares. -/
def isOppBishopPair (a b : Nat × Piece) : Bool :=
  decide ((a.2 = Piece.BBishop ∨ a.2 = Piece.WBishop) ∧
          (b.2 = Piece.BBishop ∨ b.2 = Piece.WBishop) ∧
          a.2.color ≠ b.2.color ∧ a.1 % 2 = b.1 % 2)

/-- `Game::is_draw` from the source: 50-move rule (`hm_clock == 100`
exactly) and the three insufficient-material patterns (`return true`
inside a branch, fall-through to `false` otherwise, written here as the
branch condition's value).  `none` models the `find(...).unwrap()` panic
(3 pieces, all kings) and the `nk[0]`/`nk[1]` index panic (4 pieces,
fewer than two non-kings). -/
def is_draw (g : Game) : Option Bool :=
  if g.hm_clock = 100 then some true
  else if (piecesAux g.board 0).length = 2 then some true
  else if (piecesAux g.board 0).length = 3 then
    match (piecesAux g.board 0).find? nonKingP with
    | Option.none => Option.none
    | some nk => some (isMinor nk.2)
  else if (piecesAux g.board 0).length = 4 then
    match (piecesAux g.board 0).filter nonKingP with
    | a :: b :: _ => some (isOppBishopPair a b)
    | _ => Option.none
  else some false

/-- The fixed-destination candidate loop of `all_legal_moves` (pawn,
knight and king cases): each candidate is tested once; negative targets
are skipped; passing targets are accumulated in test order. -/
def tryAll (g : Game) (fr : Nat) : List Int → Option (List Nat)
  | [] => some []
  | t :: ts =>
    if t < 0 then tryAll g fr ts
    else
      match lmw g fr t.toNat with
      | Option.none => Option.none
      | some b =>
        match tryAll g fr ts with
        | Option.none => Option.none
        | some rest => some (if b then t.toNat :: rest else rest)

/-- One `while test_move(ly * 8 + lx)` ray of `all_legal_moves` for a
sliding piece.  The source's loop always stops within 10 iterations (each
step moves one square in a fixed direction; once the file coordinate
leaves 0..7 the re-interpreted square fails the geometry or path check
within two further steps), so a fuel of 16 is ample. -/
def slide (g : Game) (fr : Nat) : Nat → Int → Int → Int → Int → Option (List Nat)
  | 0, _, _, _, _ => some []
  | fuel+1, lx, ly, rx, ry =>
    let t := ly * 8 + lx
    if t < 0 then some []
    else
      match lmw g fr t.toNat with
      | Option.none => Option.none
      | some false => some []
      | some true =>
        match slide g fr fuel (lx + rx) (ly + ry) rx ry with
        | Option.none => Option.none
        | some rest => some (t.toNat :: rest)

/-- The rays of `all_legal_moves` for a sliding piece, in the source's
direction order, concatenated. -/
def slides (g : Game) (loc : Nat) : List (Int × Int) → Option (List Nat)
  | [] => some []
  | d :: ds =>
    match slide g loc 16 (((loc % 8 : Nat) : Int) + d.1) (((loc / 8 : Nat) : Int) + d.2)
          d.1 d.2 with
    | Option.none => Option.none
    | some l1 =>
      match slides g loc ds with
      | Option.none => Option.none
      | some l2 => some (l1 ++ l2)

/-- `Game::all_legal_moves` from the source.  `none` models the panic of
`self.board[loc]` on an out-of-range square and panics inside the
speculative evaluations.  The empty list is returned for an empty square
or an opponent's piece. -/
def all_legal_moves (g : Game) (loc : Nat) : Option (List Nat) :=
  if 63 < loc then Option.none else
  match g.board.get loc with
  | Option.none => some []
  | some piece =>
    if piece.color ≠ g.turn then some [] else
    let L : Int := loc
    match piece with
    | Piece.WPawn => tryAll g loc [L+8, L+16, L+7, L+9]
    | Piece.BPawn => tryAll g loc [L-8, L-16, L-7, L-9]
    | Piece.WKnight | Piece.BKnight =>
        tryAll g loc [L+15, L+17, L-15, L-17, L+10, L-6, L-10, L+6]
    | Piece.WBishop | Piece.BBishop =>
        slides g loc [(1,1), (-1,1), (-1,-1), (1,-1)]
    | Piece.WRook | Piece.BRook =>
        slides g loc [(1,0), (-1,0), (0,1), (0,-1)]
    | Piece.WQueen | Piece.BQueen =>
        slides g loc [(1,1), (-1,1), (-1,-1), (1,-1), (1,0), (-1,0), (0,1), (0,-1)]
    | Piece.WKing | Piece.BKing =>
        tryAll g loc [L+1, L-1, L+8, L-8, L+7, L+9, L-7, L-9, L-2, L+2]

/-- The per-piece scan of `is_stalemate`: some piece of the side to move
has a nonempty legal-move list. -/
def stScan (g : Game) : List (Option Piece) → Nat → Option Bool
  | [], _ => some true
  | o :: rest, i =>
    match o with
    | Option.none => stScan g rest (i+1)
    | some p =>
      if p.color = g.turn then
        match all_legal_moves g i with
        | Option.none => Option.none
        | some [] => stScan g rest (i+1)
        | some (_ :: _) => some false
      else stScan g rest (i+1)

/-- `Game::is_stalemate` from the source: not in check and no piece of the
side to move has any legal move. -/
def is_stalemate (g : Game) : Option Bool :=
  match is_in_check g g.turn with
  | Option.none => Option.none
  | some true => some false
  | some false => stScan g g.board 0

/-- `Game::is_legal_move` from the source: pseudo-legal with king capture
forbidden, then the move must not leave the mover in check, then the
resulting position is classified (draw before stalemate/checkmate). -/
def is_legal_move (g : Game) (fr t : Nat) (promo : Option Promotion) :
    Option MoveResult :=
  match is_legal_checkless g fr t promo true with
  | Option.none => Option.none
  | some res =>
    if res ≠ MoveResult.Valid then some res else
    let n := move_unchecked g fr t promo
    match is_in_check n g.turn with
    | Option.none => Option.none
    | some true => some MoveResult.Illegal
    | some false =>
      match is_draw n with
      | Option.none => Option.none
      | some true => some MoveResult.Draw
      | some false =>
        match is_in_check n g.turn.opp with
        | Option.none => Option.none
        | some false =>
          match is_stalemate n with
          | Option.none => Option.none
          | some true => some MoveResult.Stalemate
          | some false => some MoveResult.Valid
        | some true =>
          match is_in_checkmate n g.turn.opp with
          | Option.none => Option.none
          | some true => some MoveResult.Checkmate
          | some false => some MoveResult.Check

/-! ### FEN serialization (`as_fen` / `from_fen`), over `List Char` -/

/-- The character `n + b'0'`. -/
def digitChar (n : Nat) : Char := Char.ofNat (n + 48)

/-- The inner row loop of `Board::into_fen_board`: run-length encodes a
row of cells, with `n` the pending count of empty squares. -/
def encCells : List (Option Piece) → Nat → List Char
  | [], n => if n = 0 then [] else [digitChar n]
  | some p :: rest, n =>
      (if n = 0 then [] else [digitChar n]) ++ p.to_letter :: encCells rest 0
  | Option.none :: rest, n => encCells rest (n+1)

/-- Rows joined by `'/'` (the source pushes `'/'` after every row but the
last). -/
def joinSl : List (List Char) → List Char
  | [] => []
  | [r] => r
  | r :: rs => r ++ '/' :: joinSl rs

/-- `Board::into_fen_board` from the source: ranks 7 down to 0, each
run-length encoded.  The board array has exactly 64 entries in every
program state, so rank `y` is cells `8*y ..< 8*y+8`. -/
def into_fen_board (b : Bd) : List Char :=
  joinSl (((List.range 8).reverse).map (fun y => encCells ((b.drop (8*y)).take 8) 0))

/-- The decoding pass of `Board::from_fen_board`: a digit pushes that many
empty squares, any other character pushes `Piece::from_letter` of it --
which is itself an `Option`, so an unrecognized letter pushes an empty
square rather than failing (exactly as the source's
`vec.push(Piece::from_letter(char))` does). -/
def decChars : List Char → List (Option Piece) → List (Option Piece)
  | [], acc => acc
  | c :: cs, acc =>
    if c.isDigit then decChars cs (acc ++ List.replicate (c.toNat - 48) Option.none)
    else decChars cs (acc ++ [Piece.from_letter c])

/-- The split of `str::split` on a single character: keeps empty chunks,
always yields at least one chunk. -/
def splitOnCh (sep : Char) : List Char → List (List Char)
  | [] => [[]]
  | c :: cs =>
    match splitOnCh sep cs with
    | [] => [[]]
    | h :: rest => if c = sep then [] :: h :: rest else (c :: h) :: rest

/-- `Board::from_fen_board` from the source: rows split on `'/'`,
processed bottom row first, decoded; fails unless exactly 64 cells
result. -/
def from_fen_board (s : List Char) : Option Bd :=
  let cells := decChars ((splitOnCh '/' s).reverse.flatten) []
  if cells.length = 64 then some cells else Option.none

/-- The castling field written by `as_fen`: subset letters in the order
`KQkq`, or `-` when no right remains. -/
def castleChars (c : Castle) : List Char :=
  (if c.wk then ['K'] else []) ++ (if c.wq then ['Q'] else []) ++
  (if c.bk then ['k'] else []) ++ (if c.bq then ['q'] else []) ++
  (if c = Castle.none then ['-'] else [])

/-- The castling-field parse loop of `from_fen`: starts from no rights,
sets a bit per recognized letter, stops at `'-'`, ignores anything else. -/
def parseCastle : List Char → Castle → Castle
  | [], c => c
  | ch :: rest, c =>
    if ch = 'K' then parseCastle rest { c with wk := true }
    else if ch = 'Q' then parseCastle rest { c with wq := true }
    else if ch = 'k' then parseCastle rest { c with bk := true }
    else if ch = 'q' then parseCastle rest { c with bq := true }
    else if ch = '-' then c
    else parseCastle rest c

/-- The en-passant field written by `as_fen`: file letter then rank
digit, or `-`. -/
def epChars : Option EnPassant → List Char
  | Option.none => ['-']
  | some e => [Char.ofNat (e.location % 8 + 97), Char.ofNat (e.location / 8 + 49)]

/-- The en-passant field parse of `from_fen`.  The source's
`iter.next()?` makes a field other than `-` with fewer than two
characters fail the whole parse (outer `none`); the `usize` subtractions
are release-mode wrapping arithmetic, modelled mod `2^64`
(out-of-range results make `from_take_location` yield no target). -/
def parseEpField (s : List Char) : Option (Option EnPassant) :=
  if s = ['-'] then some Option.none
  else
    match s with
    | c0 :: c1 :: _ =>
        let x := (c0.toNat + (18446744073709551616 - 97)) % 18446744073709551616
        let y := (((c1.toNat + (18446744073709551616 - 49)) % 18446744073709551616) * 8) %
                   18446744073709551616
        some (EnPassant.from_take_location ((y + x) % 18446744073709551616))
    | _ => Option.none

/-- Decimal digits of `n`, most significant first (`u8::to_string` /
`u16::to_string`). -/
def natDigits (n : Nat) : List Char :=
  if n < 10 then [digitChar n]
  else natDigits (n / 10) ++ [digitChar (n % 10)]
decreasing_by exact Nat.div_lt_self (by omega) (by omega)

/-- Digit-accumulation loop of integer parsing; `none` on any non-digit. -/
def digitsVal : List Char → Nat → Option Nat
  | [], acc => some acc
  | c :: cs, acc =>
    if c.isDigit then digitsVal cs (acc * 10 + (c.toNat - 48)) else Option.none

/-- Rust `str::parse` for an unsigned integer type with maximum `maxv`:
optional leading `+`, then a nonempty digit string whose value fits. -/
def parseNatBound (maxv : Nat) (s : List Char) : Option Nat :=
  let s2 := match s with
            | c :: rest => if c = '+' then rest else c :: rest
            | [] => []
  match s2 with
  | [] => Option.none
  | _ =>
    match digitsVal s2 0 with
    | Option.none => Option.none
    | some v => if v ≤ maxv then some v else Option.none

/-- The side-to-move field written by `as_fen`. -/
def turnChars : Color → List Char
  | Color.White => ['w']
  | Color.Black => ['b']

/-- `Game::as_fen` from the source: the six space-separated fields. -/
def as_fen (g : Game) : List Char :=
  into_fen_board g.board ++
  ' ' :: turnChars g.turn ++
  ' ' :: castleChars g.castle ++
  ' ' :: epChars g.en_passant ++
  ' ' :: natDigits g.hm_clock ++
  ' ' :: natDigits g.fm_clock

/-- The half-move-clock field with its `unwrap_or("0")` default. -/
def hmFieldOf (rest : List (List Char)) : List Char :=
  match rest with
  | h :: _ => h
  | [] => ['0']

/-- The full-move-counter field with its `unwrap_or("1")` default. -/
def fmFieldOf (rest : List (List Char)) : List Char :=
  match rest with
  | _ :: f :: _ => f
  | _ => ['1']

/-- `Game::from_fen` from the source: requires the first four fields,
defaults the clocks to `0` and `1`, fails (`none`) when the board field
does not decode to 64 squares, the en-passant field is malformed-short,
or a clock field does not parse as `u8` / `u16`. -/
def from_fen (s : List Char) : Option Game :=
  match splitOnCh ' ' s with
  | board :: turnf :: castlef :: epf :: rest =>
    let hmf := hmFieldOf rest
    let fmf := fmFieldOf rest
    let cle := parseCastle castlef Castle.none
    match parseEpField epf with
    | Option.none => Option.none
    | some en_p =>
      match from_fen_board board with
      | Option.none => Option.none
      | some bd =>
        match parseNatBound 255 hmf with
        | Option.none => Option.none
        | some hm =>
          match parseNatBound 65535 fmf with
          | Option.none => Option.none
          | some fm =>
            some ⟨bd, en_p, cle,
                  (if turnf = ['w'] then Color.White else Color.Black), hm, fm⟩
  | _ => Option.none

/-! ### Auxiliary definitions used only in theorem statements -/

/-- A placeholder game (used only as the `getD` default in `mkGame`). -/
def emptyGame : Game := ⟨[], Option.none, Castle.none, Color.White, 0, 0⟩

/-- Concrete positions for theorems, written as FEN records. -/
def mkGame (s : String) : Game := (from_fen s.toList).getD emptyGame

/-- The king piece of a color. -/
def kingOf : Color → Piece
  | Color.White => Piece.WKing
  | Color.Black => Piece.BKing

/-- No king of color `c` anywhere on the board. -/
def kingFree (c : Color) (b : Bd) : Bool :=
  b.all (fun o => decide (o ≠ some (kingOf c)))

/-- The material-draw configurations exactly as the claim words them
(spec section 4.5): bare kings; exactly 3 pieces whose *sole* non-king
piece is a knight or bishop; exactly 4 pieces whose *two* non-king pieces
are bishops of opposite colors on same-parity squares.  This definition
follows the claim's words, for comparison against the source's
`is_draw`. -/
def drawMaterialSpec (g : Game) : Bool :=
  ((piecesAux g.board 0).length == 2) ||
  ((piecesAux g.board 0).length == 3 &&
    match (piecesAux g.board 0).filter nonKingP with
    | [pr] => isMinor pr.2
    | _ => false) ||
  ((piecesAux g.board 0).length == 4 &&
    match (piecesAux g.board 0).filter nonKingP with
    | [a, b] => isOppBishopPair a b
    | _ => false)

/-- The material-draw configurations as the source actually computes
them: with 3 pieces the *first* non-king piece in board order decides;
with 4 pieces the *first two* non-king pieces in board order decide
(extra non-kings beyond those are ignored). -/
def drawMaterialCode (g : Game) : Bool :=
  ((piecesAux g.board 0).length == 2) ||
  ((piecesAux g.board 0).length == 3 &&
    match (piecesAux g.board 0).filter nonKingP with
    | pr :: _ => isMinor pr.2
    | [] => false) ||
  ((piecesAux g.board 0).length == 4 &&
    match (piecesAux g.board 0).filter nonKingP with
    | a :: b :: _ => isOppBishopPair a b
    | _ => false)

/-! ### Theorems -/

theorem bget_set_ne (b : Bd) {i j : Nat} (v : Option Piece) (h : i ≠ j) :
    (b.set i v).get j = b.get j := by
  unfold Bd.get Bd.set
  rw [List.getD_eq_getElem?_getD, List.getD_eq_getElem?_getD, List.getElem?_set_ne h]

theorem blength_set (b : Bd) (i : Nat) (v : Option Piece) :
    (b.set i v).length = b.length := List.length_set b i v

theorem muFm_hm (g : Game) : (muFm g).hm_clock = g.hm_clock := by
  unfold muFm; split <;> rfl

theorem muFm_board (g : Game) : (muFm g).board = g.board := by
  unfold muFm; split <;> rfl

theorem muPawnEp_hm (piece : Piece) (fr t : Nat) (g : Game) :
    (muPawnEp piece fr t g).hm_clock =
      if piece = Piece.BPawn ∨ piece = Piece.WPawn then 0 else (g.hm_clock + 1) % 256 := by
  unfold muPawnEp
  split
  · dsimp only
    split <;> rfl
  · rfl

theorem muPawnEp_bget_t (piece : Piece) (fr t : Nat) (g : Game) :
    (muPawnEp piece fr t g).board.get t = g.board.get t := by
  unfold muPawnEp
  split
  · dsimp only
    split
    all_goals
      split
      · split
        · next enp heq hloc =>
            show (g.board.set enp.pawn_lost_pos Option.none).get t = g.board.get t
            exact bget_set_ne _ _ (by unfold EnPassant.pawn_lost_pos; omega)
        · rfl
      · rfl
  · rfl

theorem muPawnEp_length (piece : Piece) (fr t : Nat) (g : Game) :
    (muPawnEp piece fr t g).board.length = g.board.length := by
  unfold muPawnEp
  split
  · dsimp only
    split
    all_goals
      split
      · split
        · exact blength_set ..
        · rfl
      · rfl
  · rfl

theorem muCastleRights_board (fr : Nat) (g : Game) :
    (muCastleRights fr g).board = g.board := by
  unfold muCastleRights
  split <;> (repeat' split) <;> rfl

theorem muCastleRights_hm (fr : Nat) (g : Game) :
    (muCastleRights fr g).hm_clock = g.hm_clock := by
  unfold muCastleRights
  split <;> (repeat' split) <;> rfl

theorem muRookCapRights_board (t : Nat) (g : Game) :
    (muRookCapRights t g).board = g.board := by
  unfold muRookCapRights
  repeat' split
  all_goals rfl

theorem muRookCapRights_hm (t : Nat) (g : Game) :
    (muRookCapRights t g).hm_clock = g.hm_clock := by
  unfold muRookCapRights
  repeat' split
  all_goals rfl

theorem muCapClock_hm (t : Nat) (g : Game) :
    (muCapClock t g).hm_clock = if (g.board.get t).isSome then 0 else g.hm_clock := by
  unfold muCapClock; split <;> simp_all

theorem muCapClock_board (t : Nat) (g : Game) :
    (muCapClock t g).board = g.board := by
  unfold muCapClock; split <;> rfl

theorem muBoard_hm (piece : Piece) (fr t : Nat) (promo : Option Promotion) (g : Game) :
    (muBoard piece fr t promo g).hm_clock = g.hm_clock := by
  unfold muBoard
  rcases promo <;> (repeat' split) <;> rfl

theorem muBoard_length (piece : Piece) (fr t : Nat) (promo : Option Promotion) (g : Game) :
    (muBoard piece fr t promo g).board.length = g.board.length := by
  unfold muBoard
  rcases promo <;> (repeat' split) <;>
    simp only [blength_set]

theorem find_eq_head_filter {α : Type} (p : α → Bool) (l : List α) :
    l.find? p = (l.filter p).head? := by
  induction l with
  | nil => rfl
  | cons a l ih =>
    by_cases h : p a = true
    · rw [List.find?_cons_of_pos _ h, List.filter_cons_of_pos h]
      rfl
    · rw [List.find?_cons_of_neg _ (by simp [h]), List.filter_cons_of_neg (by simp [h]), ih]

/-- C2 (code_bug): the source's destination test forbids capturing
`Piece::BKing` only, so the pseudo-legal evaluator with `king_check =
true` rejects a move onto the Black king (White to move, first conjunct)
but *accepts* a rook capture of the White king with Black to move (second
conjunct: `Valid`, not `Illegal`), contradicting the claim and the
source's own comment "make sure move does not take own piece (or enemy
king)". -/
theorem C2_enemy_king_capture_asymmetric :
    is_legal_checkless (mkGame "R6K/8/8/8/8/8/8/k7 w - - 0 1") 56 0 Option.none true =
      some MoveResult.Illegal ∧
    is_legal_checkless (mkGame "r6k/8/8/8/8/8/8/K7 b - - 0 1") 56 0 Option.none true =
      some MoveResult.Valid := by
  exact ⟨by decide, by decide⟩

/-- C7 (counterexample): a board with king + knight + knight has three
pieces but no *sole* non-king piece, so the claim's enumeration does not
apply and the claim requires `is_draw = false`; the source instead takes
the *first* non-king piece (a knight) and returns `true`. -/
theorem C7_counterexample :
    (mkGame "8/8/8/8/8/8/8/KNn5 w - - 0 1").hm_clock < 100 ∧
    drawMaterialSpec (mkGame "8/8/8/8/8/8/8/KNn5 w - - 0 1") = false ∧
    is_draw (mkGame "8/8/8/8/8/8/8/KNn5 w - - 0 1") = some true := by
  exact ⟨by decide, by decide, by decide⟩

/-- C7 (amended): for positions whose half-move clock is below 100, and
whose boards do not trigger the source's panics (a 3-piece board has at
least one non-king piece, a 4-piece board at least two), `is_draw`
returns exactly the source's material test: bare kings; 3 pieces whose
*first* non-king piece in board order is a minor; 4 pieces whose *first
two* non-king pieces in board order are opposite-colored bishops on
same-parity squares. -/
theorem C7_is_draw_material (g : Game) (h1 : g.hm_clock < 100)
    (h2 : (piecesAux g.board 0).length = 3 →
      (piecesAux g.board 0).filter nonKingP ≠ [])
    (h3 : (piecesAux g.board 0).length = 4 →
      2 ≤ ((piecesAux g.board 0).filter nonKingP).length) :
    is_draw g = some (drawMaterialCode g) := by
  have hne : ¬ g.hm_clock = 100 := by omega
  unfold is_draw drawMaterialCode
  rw [find_eq_head_filter, if_neg hne]
  generalize hnk : (piecesAux g.board 0).filter nonKingP = nk at h2 h3 ⊢
  generalize hL : (piecesAux g.board 0).length = L at h2 h3 ⊢
  by_cases hl2 : L = 2
  · subst hl2; rfl
  · rw [if_neg hl2]
    by_cases hl3 : L = 3
    · subst hl3
      rcases nk with _ | ⟨pr, rest⟩
      · exact absurd rfl (h2 rfl)
      · show some (isMinor pr.2) = _
        simp
    · rw [if_neg hl3]
      by_cases hl4 : L = 4
      · subst hl4
        rcases nk with _ | ⟨a, _ | ⟨b, rest⟩⟩
        · have := h3 rfl; simp at this
        · have := h3 rfl; simp at this
        · rfl
      · rw [if_neg hl4]
        have b2 : (L == 2) = false := by simp [hl2]
        have b3 : (L == 3) = false := by simp [hl3]
        have b4 : (L == 4) = false := by simp [hl4]
        rw [b2, b3, b4]
        rfl

/-- C7 (witness): king + bishop vs king is a material draw, via
`C7_is_draw_material` at a concrete position. -/
theorem C7_witness :
    is_draw (mkGame "8/8/8/8/8/8/8/KB5k w - - 0 1") =
      some (drawMaterialCode (mkGame "8/8/8/8/8/8/8/KB5k w - - 0 1")) :=
  C7_is_draw_material (mkGame "8/8/8/8/8/8/8/KB5k w - - 0 1")
    (by decide) (by decide) (by decide)

theorem kingOf_prop (c : Color) :
    (kingOf c).color = c ∧ (kingOf c = Piece.WKing ∨ kingOf c = Piece.BKing) := by
  cases c <;> exact ⟨rfl, by decide⟩

theorem mem_of_bget (b : Bd) (i : Nat) (p : Piece) (h : b.get i = some p) :
    some p ∈ b := by
  unfold Bd.get at h
  rw [List.getD_eq_getElem?_getD] at h
  rcases hh : b[i]? with _ | o
  · rw [hh] at h
    simp at h
  · rw [hh] at h
    simp only [Option.getD_some] at h
    rw [h] at hh
    exact List.getElem?_mem hh

theorem find_king_aux_isSome (player : Color) (l : List (Option Piece)) (i : Nat)
    (h : some (kingOf player) ∈ l) : (find_king_aux player l i).isSome = true := by
  induction l generalizing i with
  | nil => simp at h
  | cons o rest ih =>
    unfold find_king_aux
    rcases o with _ | p
    · dsimp only
      have hmem : some (kingOf player) ∈ rest := by simpa using h
      exact ih _ hmem
    · dsimp only
      by_cases hp : p.color = player ∧ (p = Piece.WKing ∨ p = Piece.BKing)
      · rw [if_pos hp]
        rfl
      · rw [if_neg hp]
        have hmem : some (kingOf player) ∈ rest := by
          rcases List.mem_cons.mp h with heq | hmem
          · exfalso
            apply hp
            have hpk : p = kingOf player := by injection heq.symm
            rw [hpk]
            exact kingOf_prop player
          · exact hmem
        exact ih _ hmem

theorem is_in_check_isSome (g : Game) (c : Color) (i : Nat)
    (h : g.board.get i = some (kingOf c)) : ∃ bc, is_in_check g c = some bc := by
  unfold is_in_check find_king
  have hs := find_king_aux_isSome c g.board 0 (mem_of_bget _ _ _ h)
  rcases hk : find_king_aux c g.board 0 with _ | kpos
  · rw [hk] at hs
    simp at hs
  · exact ⟨_, rfl⟩

theorem mcheckless_wcastle (ick : Game → Color → Option Bool) (g : Game)
    (promo : Option Promotion) (bc : Bool)
    (h1 : g.turn = Color.White) (h2 : g.board.get 4 = some Piece.WKing)
    (hchk : ick g g.turn = some bc)
    (h3 : ick (move_unchecked g 4 5 Option.none) g.turn = some true) :
    mcheckless ick g 4 6 promo true = some MoveResult.Illegal := by
  unfold mcheckless
  rw [if_neg (by decide), h2]
  dsimp only
  rw [h1] at hchk h3 ⊢
  rw [if_neg (by decide)]
  by_cases hbad : (match g.board.get 6 with
      | some q => decide (q.color = Color.White) || (true && decide (q = Piece.BKing))
      | Option.none => false) = true
  · rw [if_pos hbad]
  · rw [if_neg hbad]
    rw [if_neg (by decide), if_pos (by decide), hchk]
    cases bc
    · dsimp only
      rw [if_neg (by decide), if_neg (by decide), if_pos (by decide)]
      rcases hwk : g.castle.wk with _ | _
      · rw [if_pos rfl]
      · rw [if_neg (by decide)]
        by_cases hocc : (g.board.get 5).isSome = true ∨ (g.board.get 6).isSome = true
        · rw [if_pos hocc]
        · rw [if_neg hocc, h3]
    · dsimp only

theorem mcheckless_bcastle (ick : Game → Color → Option Bool) (g : Game)
    (promo : Option Promotion) (bc : Bool)
    (h1 : g.turn = Color.Black) (h2 : g.board.get 60 = some Piece.BKing)
    (hchk : ick g g.turn = some bc)
    (h3 : ick (move_unchecked g 60 61 Option.none) g.turn = some true) :
    mcheckless ick g 60 62 promo true = some MoveResult.Illegal := by
  unfold mcheckless
  rw [if_neg (by decide), h2]
  dsimp only
  rw [h1] at hchk h3 ⊢
  rw [if_neg (by decide)]
  by_cases hbad : (match g.board.get 62 with
      | some q => decide (q.color = Color.Black) || (true && decide (q = Piece.BKing))
      | Option.none => false) = true
  · rw [if_pos hbad]
  · rw [if_neg hbad]
    rw [if_neg (by decide), if_pos (by decide), hchk]
    cases bc
    · dsimp only
      rw [if_pos (by decide)]
      rcases hbk : g.castle.bk with _ | _
      · rw [if_pos rfl]
      · rw [if_neg (by decide)]
        by_cases hocc : (g.board.get 61).isSome = true ∨ (g.board.get 62).isSome = true
        · rw [if_pos hocc]
        · rw [if_neg hocc, h3]
    · dsimp only

theorem orSeq_true (f : Nat → Option Bool) (l : List Nat) (acc : Bool)
    (h : orSeq f l acc = some true) : acc = true ∨ ∃ x ∈ l, f x = some true := by
  induction l generalizing acc with
  | nil =>
    unfold orSeq at h
    injection h with h2
    exact Or.inl h2
  | cons a rest ih =>
    unfold orSeq at h
    rcases hf : f a with _ | b <;> rw [hf] at h
    · exact absurd h (by simp)
    · dsimp only at h
      rcases ih _ h with hacc | ⟨x, hx, hfx⟩
      · rcases Bool.or_eq_true_iff.mp hacc with h1 | h1
        · exact Or.inl h1
        · exact Or.inr ⟨a, by simp, by rw [hf, h1]⟩
      · exact Or.inr ⟨x, by simp [hx], hfx⟩

theorem orSeq_true_of_mem (f : Nat → Option Bool) (l : List Nat) (acc : Bool) (b : Bool)
    (x : Nat) (h : orSeq f l acc = some b) (hx : x ∈ l) (hfx : f x = some true) :
    b = true := by
  induction l generalizing acc with
  | nil => simp at hx
  | cons a rest ih =>
    unfold orSeq at h
    rcases hf : f a with _ | b2 <;> rw [hf] at h
    · exact absurd h (by simp)
    · dsimp only at h
      rcases List.mem_cons.mp hx with rfl | hx2
      · rw [hfx] at hf
        injection hf with hb2
        have hstep : orSeq f rest (acc || b2) = some b := h
        clear ih
        rw [← hb2] at hstep
        -- accumulator is true from here on; show the result is true
        have : ∀ L (a2 : Bool), a2 = true → orSeq f L a2 = some b → b = true := by
          intro L
          induction L with
          | nil =>
            intro a2 ha2 hh
            unfold orSeq at hh
            injection hh with hh2
            rw [← hh2, ha2]
          | cons c cs ih2 =>
            intro a2 ha2 hh
            unfold orSeq at hh
            rcases hg : f c with _ | b3 <;> rw [hg] at hh
            · exact absurd hh (by simp)
            · exact ih2 _ (by rw [ha2]; rfl) hh
        exact this rest _ (by simp) hstep
      · exact ih _ h hx2

theorem blockInner_acc_true (f : Nat → Nat → Option Bool) (s : Nat) (ts : List Nat)
    (b : Bool) (h : blockInner f s ts true = some b) : b = true := by
  cases ts with
  | nil =>
    unfold blockInner at h
    injection h with h2
    exact h2.symm
  | cons a rest =>
    unfold blockInner at h
    rcases hf : f s a with _ | b2 <;> rw [hf] at h
    · exact absurd h (by simp)
    · dsimp only at h
      rw [if_pos (by simp)] at h
      injection h with h2
      rw [← h2]
      simp

theorem blockInner_true_exists (f : Nat → Nat → Option Bool) (s : Nat) (ts : List Nat)
    (acc : Bool) (h : blockInner f s ts acc = some true) :
    acc = true ∨ ∃ x ∈ ts, f s x = some true := by
  induction ts generalizing acc with
  | nil =>
    unfold blockInner at h
    injection h with h2
    exact Or.inl h2
  | cons a rest ih =>
    unfold blockInner at h
    rcases hf : f s a with _ | b2 <;> rw [hf] at h
    · exact absurd h (by simp)
    · dsimp only at h
      by_cases hab : (acc || b2) = true
      · rcases Bool.or_eq_true_iff.mp hab with h1 | h1
        · exact Or.inl h1
        · exact Or.inr ⟨a, by simp, by rw [hf, h1]⟩
      · rw [if_neg hab] at h
        rcases ih _ h with h1 | ⟨x, hx, hfx⟩
        · rcases Bool.or_eq_true_iff.mp h1 with h2 | h2
          · exact Or.inl h2
          · exact Or.inr ⟨a, by simp, by rw [hf, h2]⟩
        · exact Or.inr ⟨x, by simp [hx], hfx⟩

theorem blockInner_true_of_mem (f : Nat → Nat → Option Bool) (s : Nat) (ts : List Nat)
    (acc : Bool) (b : Bool) (x : Nat) (h : blockInner f s ts acc = some b)
    (hx : x ∈ ts) (hfx : f s x = some true) : b = true := by
  induction ts generalizing acc with
  | nil => simp at hx
  | cons a rest ih =>
    unfold blockInner at h
    rcases hf : f s a with _ | b2 <;> rw [hf] at h
    · exact absurd h (by simp)
    · dsimp only at h
      rcases List.mem_cons.mp hx with rfl | hx2
      · rw [hfx] at hf
        injection hf with hb2
        rw [← hb2] at h
        rw [if_pos (by simp)] at h
        injection h with h2
        rw [← h2]
        simp
      · by_cases hab : (acc || b2) = true
        · rw [if_pos hab] at h
          injection h with h2
          rw [← h2]
          exact hab
        · rw [if_neg hab] at h
          exact ih _ h hx2

theorem blockOuter_acc_true (f : Nat → Nat → Option Bool) (th : List Nat)
    (ss : List Nat) (b : Bool) (h : blockOuter f th ss true = some b) : b = true := by
  induction ss with
  | nil =>
    unfold blockOuter at h
    injection h with h2
    exact h2.symm
  | cons s rest ih =>
    unfold blockOuter at h
    rcases hi : blockInner f s th true with _ | acc2 <;> rw [hi] at h
    · exact absurd h (by simp)
    · dsimp only at h
      have hacc2 : acc2 = true := blockInner_acc_true f s th acc2 hi
      rw [hacc2] at h
      exact ih h

theorem blockOuter_true_exists (f : Nat → Nat → Option Bool) (th : List Nat)
    (ss : List Nat) (acc : Bool) (h : blockOuter f th ss acc = some true) :
    acc = true ∨ ∃ s ∈ ss, ∃ x ∈ th, f s x = some true := by
  induction ss generalizing acc with
  | nil =>
    unfold blockOuter at h
    injection h with h2
    exact Or.inl h2
  | cons s rest ih =>
    unfold blockOuter at h
    rcases hi : blockInner f s th acc with _ | acc2 <;> rw [hi] at h
    · exact absurd h (by simp)
    · dsimp only at h
      rcases ih _ h with hacc2 | ⟨s2, hs2, x, hx, hfx⟩
      · rw [hacc2] at hi
        rcases blockInner_true_exists f s th acc hi with h1 | ⟨x, hx, hfx⟩
        · exact Or.inl h1
        · exact Or.inr ⟨s, by simp, x, hx, hfx⟩
      · exact Or.inr ⟨s2, by simp [hs2], x, hx, hfx⟩

theorem blockOuter_true_of_mem (f : Nat → Nat → Option Bool) (th : List Nat)
    (ss : List Nat) (acc : Bool) (b : Bool) (s x : Nat)
    (h : blockOuter f th ss acc = some b) (hs : s ∈ ss) (hx : x ∈ th)
    (hfx : f s x = some true) : b = true := by
  induction ss generalizing acc with
  | nil => simp at hs
  | cons a rest ih =>
    unfold blockOuter at h
    rcases hi : blockInner f a th acc with _ | acc2 <;> rw [hi] at h
    · exact absurd h (by simp)
    · dsimp only at h
      rcases List.mem_cons.mp hs with rfl | hs2
      · have hacc2 : acc2 = true := blockInner_true_of_mem f s th acc acc2 x hi hx hfx
        rw [hacc2] at h
        exact blockOuter_acc_true f th rest b h
      · exact ih _ h hs2

theorem lmw_true (g : Game) (fr t : Nat) (h : lmw g fr t = some true) :
    is_legal_checkless g fr t (some Promotion.Queen) false = some MoveResult.Valid ∧
    is_in_check (move_unchecked g fr t (some Promotion.Queen)) g.turn = some false := by
  unfold lmw at h
  rcases hc : is_legal_checkless g fr t (some Promotion.Queen) false with _ | r
  · rw [hc] at h
    exact absurd h (by simp)
  · rw [hc] at h
    cases r
    case Valid =>
      dsimp only at h
      refine ⟨rfl, ?_⟩
      rcases hic : is_in_check (move_unchecked g fr t (some Promotion.Queen)) g.turn
          with _ | b
      · rw [hic] at h
        simp at h
      · rw [hic] at h
        cases b
        · rfl
        · simp at h
    all_goals
      dsimp only at h
      exact absurd h (by simp)

theorem mcheckless_kingCk_irrel (ick : Game → Color → Option Bool) (g : Game)
    (fr t : Nat) (promo : Option Promotion) (h : g.board.get t ≠ some Piece.BKing) :
    mcheckless ick g fr t promo true = mcheckless ick g fr t promo false := by
  unfold mcheckless
  rcases hb : g.board.get t with _ | q
  · rfl
  · have hq : q ≠ Piece.BKing := by
      rintro rfl
      exact h hb
    simp only [decide_eq_false hq, Bool.and_false]

theorem tryAll_mem (g : Game) (fr : Nat) (ts : List Int) (l : List Nat) (x : Nat)
    (h : tryAll g fr ts = some l) (hx : x ∈ l) : lmw g fr x = some true := by
  induction ts generalizing l with
  | nil =>
    unfold tryAll at h
    injection h with h2
    rw [← h2] at hx
    simp at hx
  | cons t rest ih =>
    unfold tryAll at h
    by_cases hneg : t < 0
    · rw [if_pos hneg] at h
      exact ih _ h hx
    · rw [if_neg hneg] at h
      rcases hm : lmw g fr t.toNat with _ | b <;> rw [hm] at h
      · exact absurd h (by simp)
      · dsimp only at h
        rcases hr : tryAll g fr rest with _ | rest2 <;> rw [hr] at h
        · exact absurd h (by simp)
        · dsimp only at h
          injection h with h2
          rw [← h2] at hx
          cases b
          · rw [if_neg (by simp)] at hx
            exact ih _ hr hx
          · rw [if_pos rfl] at hx
            rcases List.mem_cons.mp hx with rfl | hx2
            · exact hm
            · exact ih _ hr hx2

theorem slide_mem (g : Game) (fr : Nat) (fuel : Nat) (lx ly rx ry : Int)
    (l : List Nat) (x : Nat) (h : slide g fr fuel lx ly rx ry = some l) (hx : x ∈ l) :
    lmw g fr x = some true := by
  induction fuel generalizing lx ly l with
  | zero =>
    unfold slide at h
    injection h with h2
    rw [← h2] at hx
    simp at hx
  | succ n ih =>
    unfold slide at h
    dsimp only at h
    by_cases hneg : ly * 8 + lx < 0
    · rw [if_pos hneg] at h
      injection h with h2
      rw [← h2] at hx
      simp at hx
    · rw [if_neg hneg] at h
      rcases hm : lmw g fr (ly * 8 + lx).toNat with _ | b <;> rw [hm] at h
      · exact absurd h (by simp)
      · cases b
        · dsimp only at h
          injection h with h2
          rw [← h2] at hx
          simp at hx
        · dsimp only at h
          rcases hr : slide g fr n (lx + rx) (ly + ry) rx ry with _ | rest2 <;>
            rw [hr] at h
          · exact absurd h (by simp)
          · dsimp only at h
            injection h with h2
            rw [← h2] at hx
            rcases List.mem_cons.mp hx with rfl | hx2
            · exact hm
            · exact ih _ _ _ hr hx2

theorem slides_mem (g : Game) (loc : Nat) (ds : List (Int × Int)) (l : List Nat)
    (x : Nat) (h : slides g loc ds = some l) (hx : x ∈ l) : lmw g loc x = some true := by
  induction ds generalizing l with
  | nil =>
    unfold slides at h
    injection h with h2
    rw [← h2] at hx
    simp at hx
  | cons d rest ih =>
    unfold slides at h
    rcases h1 : slide g loc 16 (((loc % 8 : Nat) : Int) + d.1) (((loc / 8 : Nat) : Int) + d.2)
        d.1 d.2 with _ | l1 <;> rw [h1] at h
    · exact absurd h (by simp)
    · dsimp only at h
      rcases h2 : slides g loc rest with _ | l2 <;> rw [h2] at h
      · exact absurd h (by simp)
      · dsimp only at h
        injection h with hl
        rw [← hl] at hx
        rcases List.mem_append.mp hx with hx1 | hx2
        · exact slide_mem _ _ _ _ _ _ _ _ _ h1 hx1
        · exact ih _ h2 hx2

theorem all_legal_moves_mem (g : Game) (loc : Nat) (l : List Nat) (x : Nat)
    (h : all_legal_moves g loc = some l) (hx : x ∈ l) : lmw g loc x = some true := by
  unfold all_legal_moves at h
  by_cases hb : 63 < loc
  · rw [if_pos hb] at h
    exact absurd h (by simp)
  · rw [if_neg hb] at h
    rcases hp : g.board.get loc with _ | piece <;> rw [hp] at h
    · dsimp only at h
      injection h with h2
      rw [← h2] at hx
      simp at hx
    · dsimp only at h
      by_cases hc : piece.color ≠ g.turn
      · rw [if_pos hc] at h
        injection h with h2
        rw [← h2] at hx
        simp at hx
      · rw [if_neg hc] at h
        cases piece <;> dsimp only at h <;>
          first
          | exact tryAll_mem _ _ _ _ _ h hx
          | exact slides_mem _ _ _ _ _ h hx

theorem is_legal_move_classify (g : Game) (fr t : Nat) (promo : Option Promotion)
    (r : MoveResult)
    (hc : is_legal_checkless g fr t promo true = some MoveResult.Valid)
    (hn : is_in_check (move_unchecked g fr t promo) g.turn = some false)
    (h : is_legal_move g fr t promo = some r) : r.is_ok = true := by
  unfold is_legal_move at h
  rw [hc] at h
  dsimp only at h
  rw [if_neg (fun hcon => hcon rfl)] at h
  rw [hn] at h
  dsimp only at h
  rcases hd : is_draw (move_unchecked g fr t promo) with _ | (_ | _) <;>
    rw [hd] at h <;> dsimp only at h
  · exact absurd h (by simp)
  · rcases ho : is_in_check (move_unchecked g fr t promo) g.turn.opp with _ | (_ | _) <;>
      rw [ho] at h <;> dsimp only at h
    · exact absurd h (by simp)
    · rcases hs : is_stalemate (move_unchecked g fr t promo) with _ | (_ | _) <;>
        rw [hs] at h <;> dsimp only at h
      · exact absurd h (by simp)
      · injection h with h2
        rw [← h2]
        rfl
      · injection h with h2
        rw [← h2]
        rfl
    · rcases hcm : is_in_checkmate (move_unchecked g fr t promo) g.turn.opp
          with _ | (_ | _) <;> rw [hcm] at h <;> dsimp only at h
      · exact absurd h (by simp)
      · injection h with h2
        rw [← h2]
        rfl
      · injection h with h2
        rw [← h2]
        rfl
  · injection h with h2
    rw [← h2]
    rfl

/-- C3 (counterexample): back-rank position `R6k/6pp/8/8/8/8/8/1r5K`,
Black to move.  Black is in check from the straight-line rook on a8
(square 56); square 57 (b8) lies strictly between the checker and the
king (63) on rank 8, and the Black rook on b1 (square 1) can legally move
there, resolving the check — a candidate of the claim's set.  Yet
`is_in_checkmate` returns `true`: the source's threat walk
(`while ox != nx && oy != ny`) collects *no* squares for a straight-line
checker, so the block is never tried. -/
theorem C3_counterexample :
    is_in_check (mkGame "R6k/6pp/8/8/8/8/8/1r5K b - - 0 1") Color.Black = some true ∧
    (mkGame "R6k/6pp/8/8/8/8/8/1r5K b - - 0 1").board.get 56 = some Piece.WRook ∧
    (56 / 8 = 63 / 8 ∧ 56 < 57 ∧ 57 < 63) ∧
    is_legal_move (mkGame "R6k/6pp/8/8/8/8/8/1r5K b - - 0 1") 1 57 (some Promotion.Queen) =
      some MoveResult.Valid ∧
    is_in_check (move_unchecked (mkGame "R6k/6pp/8/8/8/8/8/1r5K b - - 0 1") 1 57
        (some Promotion.Queen)) Color.Black = some false ∧
    is_in_checkmate (mkGame "R6k/6pp/8/8/8/8/8/1r5K b - - 0 1") Color.Black = some true := by
  exact ⟨by decide, by decide, by decide, by decide, by decide, by decide⟩

/-- C3 (amended): for a position where the routine completes (`some b`),
`is_in_checkmate` returns `false` exactly when some candidate of the
*code's* search escapes: a king step from `kingSteps` (the eight
saturating offsets), or one of the mover's non-king pieces (`cmBlocks`)
moving onto one of the *collected* threat squares (`cmThreats`: the
checker's square for knight/pawn checkers; the walk toward the king that
stops as soon as either coordinate matches — the checker's square plus
the strictly-between squares for diagonal checkers and *nothing* for
straight-line checkers; plus the en-passant target), where escaping means
passing the pseudo-legal test with king capture permitted and queen
promotion and leaving the mover not in check. -/
theorem C3_checkmate_escape_search (g : Game) (player : Color) (kpos : Nat) (b : Bool)
    (hk : find_king g player = some kpos)
    (hchk : is_in_check g player = some true)
    (h : is_in_checkmate g player = some b) :
    (b = false ↔
      (∃ t ∈ kingSteps kpos, lmw { g with turn := player } kpos t = some true) ∨
      (∃ s ∈ cmBlocks g player kpos, ∃ x ∈ cmThreats g player kpos,
        lmw { g with turn := player } s x = some true)) := by
  unfold is_in_checkmate at h
  rw [hk] at h
  dsimp only at h
  rcases he : orSeq (fun t => lmw { g with turn := player } kpos t) (kingSteps kpos) false
      with _ | e1 <;> rw [he] at h
  · exact absurd h (by simp)
  · dsimp only at h
    rcases hb : blockOuter (fun s x => lmw { g with turn := player } s x)
        (cmThreats g player kpos) (cmBlocks g player kpos) e1 with _ | esc <;> rw [hb] at h
    · exact absurd h (by simp)
    · dsimp only at h
      injection h with h2
      constructor
      · intro hbf
        have hesc : esc = true := by
          rw [hbf] at h2
          cases esc
          · simp at h2
          · rfl
        rw [hesc] at hb
        rcases blockOuter_true_exists _ _ _ _ hb with he1 | ⟨s, hs, x, hx, hfx⟩
        · rw [he1] at he
          rcases orSeq_true _ _ _ he with hfalse | ⟨t2, ht2, hft2⟩
          · exact absurd hfalse (by simp)
          · exact Or.inl ⟨t2, ht2, hft2⟩
        · exact Or.inr ⟨s, hs, x, hx, hfx⟩
      · intro hdisj
        have hesc : esc = true := by
          rcases hdisj with ⟨t2, ht2, hft2⟩ | ⟨s, hs, x, hx, hfx⟩
          · have he1 : e1 = true := orSeq_true_of_mem _ _ _ _ _ he ht2 hft2
            rw [he1] at hb
            exact blockOuter_acc_true _ _ _ _ hb
          · exact blockOuter_true_of_mem _ _ _ _ _ _ _ hb hs hx hfx
        rw [← h2, hesc]
        rfl

/-- C3 (witness): in the counterexample's position the search reports
mate and — consistently with the amended statement — no candidate of the
*code's* search escapes, via `C3_checkmate_escape_search`. -/
theorem C3_witness :
    find_king (mkGame "R6k/6pp/8/8/8/8/8/1r5K b - - 0 1") Color.Black = some 63 ∧
    is_in_check (mkGame "R6k/6pp/8/8/8/8/8/1r5K b - - 0 1") Color.Black = some true ∧
    is_in_checkmate (mkGame "R6k/6pp/8/8/8/8/8/1r5K b - - 0 1") Color.Black = some true ∧
    ((true = false) ↔
      (∃ t ∈ kingSteps 63,
        lmw { mkGame "R6k/6pp/8/8/8/8/8/1r5K b - - 0 1" with turn := Color.Black } 63 t =
          some true) ∨
      (∃ s ∈ cmBlocks (mkGame "R6k/6pp/8/8/8/8/8/1r5K b - - 0 1") Color.Black 63,
       ∃ x ∈ cmThreats (mkGame "R6k/6pp/8/8/8/8/8/1r5K b - - 0 1") Color.Black 63,
        lmw { mkGame "R6k/6pp/8/8/8/8/8/1r5K b - - 0 1" with turn := Color.Black } s x =
          some true)) :=
  ⟨by decide, by decide, by decide,
   C3_checkmate_escape_search (mkGame "R6k/6pp/8/8/8/8/8/1r5K b - - 0 1") Color.Black 63
     true (by decide) (by decide) (by decide)⟩

/-- C4 (counterexample): `all_legal_moves` evaluates pseudo-legality with
king capture *permitted* (`king_check = false`) while `is_legal_move`
forbids it, so in a position where the Black king is capturable the rook
capture square 56 is listed yet `is_legal_move` calls it `Illegal`,
contradicting the claim that every listed square passes full legality. -/
theorem C4_counterexample :
    56 ∈ (all_legal_moves (mkGame "k7/8/8/8/8/8/8/R6K w - - 0 1") 0).getD [] ∧
    is_legal_move (mkGame "k7/8/8/8/8/8/8/R6K w - - 0 1") 0 56 (some Promotion.Queen) =
      some MoveResult.Illegal := by
  exact ⟨by decide, by decide⟩

/-- C4 (amended): every square returned by `all_legal_moves` whose
destination does not hold the *Black* king (the only king the
`king_check` flag protects) is one for which `is_legal_move` with the
same queen promotion, whenever it completes, yields a Valid-family
(`is_ok`) outcome; and `all_legal_moves` returns the empty list for every
on-board square that is empty or holds a piece of the side not to
move. -/
theorem C4_all_legal_moves (g : Game) :
    (∀ loc l t r, all_legal_moves g loc = some l → t ∈ l →
      g.board.get t ≠ some Piece.BKing →
      is_legal_move g loc t (some Promotion.Queen) = some r → r.is_ok = true) ∧
    (∀ loc, loc ≤ 63 →
      g.board.get loc = Option.none ∨
        (∃ p, g.board.get loc = some p ∧ p.color ≠ g.turn) →
      all_legal_moves g loc = some []) := by
  constructor
  · intro loc l t r h1 h2 h3 h4
    obtain ⟨hcl, hnc⟩ := lmw_true g loc t (all_legal_moves_mem g loc l t h1 h2)
    have hclT : is_legal_checkless g loc t (some Promotion.Queen) true =
        some MoveResult.Valid := by
      unfold is_legal_checkless at hcl ⊢
      rw [mcheckless_kingCk_irrel is_in_check g loc t _ h3]
      exact hcl
    exact is_legal_move_classify g loc t (some Promotion.Queen) r hclT hnc h4
  · intro loc hb hdisj
    unfold all_legal_moves
    rw [if_neg (by omega)]
    rcases hdisj with hnone | ⟨p, hp, hcol⟩
    · rw [hnone]
    · rw [hp]
      dsimp only
      rw [if_pos hcol]

/-- C4 (witness): in the counterexample position, the rook's listed quiet
move to square 8 classifies as `Check` (a Valid-family outcome), and the
enemy-occupied square 56 yields the empty list, via
`C4_all_legal_moves`. -/
theorem C4_witness :
    MoveResult.Check.is_ok = true ∧
    all_legal_moves (mkGame "k7/8/8/8/8/8/8/R6K w - - 0 1") 56 = some [] :=
  ⟨(C4_all_legal_moves (mkGame "k7/8/8/8/8/8/8/R6K w - - 0 1")).1 0
      [1, 2, 3, 4, 5, 6, 8, 16, 24, 32, 40, 48, 56] 8 MoveResult.Check
      (by decide) (by decide) (by decide) (by decide),
   (C4_all_legal_moves (mkGame "k7/8/8/8/8/8/8/R6K w - - 0 1")).2 56 (by decide)
      (Or.inr ⟨Piece.BKing, by decide, by decide⟩)⟩

theorem toNat_digitChar {n : Nat} (h : n < 10) : (digitChar n).toNat = n + 48 := by
  interval_cases n <;> decide

theorem isDigit_digitChar {n : Nat} (h : n < 10) : (digitChar n).isDigit = true := by
  interval_cases n <;> decide

theorem digitChar_ne_slash {n : Nat} (h : n < 10) : digitChar n ≠ '/' := by
  interval_cases n <;> decide

theorem digitChar_ne_space {n : Nat} (h : n < 10) : digitChar n ≠ ' ' := by
  interval_cases n <;> decide

theorem fromLetter_toLetter (p : Piece) : Piece.from_letter p.to_letter = some p := by
  cases p <;> decide

theorem toLetter_not_digit (p : Piece) : (Piece.to_letter p).isDigit = false := by
  cases p <;> decide

theorem toLetter_ne_slash (p : Piece) : Piece.to_letter p ≠ '/' := by
  cases p <;> decide

theorem toLetter_ne_space (p : Piece) : Piece.to_letter p ≠ ' ' := by
  cases p <;> decide

theorem digitsVal_append (xs ys : List Char) (acc : Nat) :
    digitsVal (xs ++ ys) acc =
      match digitsVal xs acc with
      | some v => digitsVal ys v
      | Option.none => Option.none := by
  induction xs generalizing acc with
  | nil => rfl
  | cons c cs ih =>
    show digitsVal (c :: (cs ++ ys)) acc = _
    rw [show digitsVal (c :: (cs ++ ys)) acc =
          if c.isDigit then digitsVal (cs ++ ys) (acc * 10 + (c.toNat - 48))
          else Option.none from rfl,
        show digitsVal (c :: cs) acc =
          if c.isDigit then digitsVal cs (acc * 10 + (c.toNat - 48))
          else Option.none from rfl]
    by_cases hd : c.isDigit = true
    · rw [if_pos hd, if_pos hd]
      exact ih _
    · rw [if_neg hd, if_neg hd]

theorem digitsVal_natDigits (n : Nat) : digitsVal (natDigits n) 0 = some n := by
  induction n using Nat.strong_induction_on with
  | _ n ih =>
    unfold natDigits
    by_cases h : n < 10
    · rw [if_pos h]
      unfold digitsVal
      rw [if_pos (isDigit_digitChar h), toNat_digitChar h]
      unfold digitsVal
      congr 1
      omega
    · rw [if_neg h]
      rw [digitsVal_append]
      rw [ih (n / 10) (Nat.div_lt_self (by omega) (by omega))]
      have hm : n % 10 < 10 := Nat.mod_lt _ (by omega)
      unfold digitsVal
      rw [if_pos (isDigit_digitChar hm), toNat_digitChar hm]
      unfold digitsVal
      congr 1
      omega

theorem natDigits_head (n : Nat) :
    ∃ c cs, natDigits n = c :: cs ∧ c.isDigit = true := by
  induction n using Nat.strong_induction_on with
  | _ n ih =>
    unfold natDigits
    by_cases h : n < 10
    · rw [if_pos h]
      exact ⟨_, _, rfl, isDigit_digitChar h⟩
    · rw [if_neg h]
      obtain ⟨c, cs, hcons, hcd⟩ := ih (n / 10) (Nat.div_lt_self (by omega) (by omega))
      exact ⟨c, cs ++ [digitChar (n % 10)], by rw [hcons]; rfl, hcd⟩

theorem digits_all_digit (n : Nat) : ∀ c ∈ natDigits n, c.isDigit = true := by
  induction n using Nat.strong_induction_on with
  | _ n ih =>
    unfold natDigits
    by_cases h : n < 10
    · rw [if_pos h]
      intro c hc
      rw [List.mem_singleton.mp hc]
      exact isDigit_digitChar h
    · rw [if_neg h]
      intro c hc
      rcases List.mem_append.mp hc with h1 | h2
      · exact ih (n / 10) (Nat.div_lt_self (by omega) (by omega)) c h1
      · rw [List.mem_singleton.mp h2]
        exact isDigit_digitChar (Nat.mod_lt _ (by omega))

theorem natDigits_no_space (n : Nat) : ' ' ∉ natDigits n := by
  intro hmem
  have := digits_all_digit n _ hmem
  exact absurd this (by decide)

theorem parseNatBound_natDigits (maxv n : Nat) (h : n ≤ maxv) :
    parseNatBound maxv (natDigits n) = some n := by
  obtain ⟨c, cs, hcons, hcd⟩ := natDigits_head n
  unfold parseNatBound
  rw [hcons]
  dsimp only
  rw [if_neg (fun he => by rw [he] at hcd; exact absurd hcd (by decide))]
  dsimp only
  rw [← hcons, digitsVal_natDigits]
  dsimp only
  rw [if_pos h]

theorem parseNatBound_le (maxv : Nat) (s : List Char) (v : Nat)
    (h : parseNatBound maxv s = some v) : v ≤ maxv := by
  unfold parseNatBound at h
  dsimp only at h
  split at h
  · exact absurd h (by simp)
  · split at h
    · exact absurd h (by simp)
    · split at h
      · injection h with h2
        rw [← h2]
        assumption
      · exact absurd h (by simp)

theorem from_fen_board_length (s : List Char) (bd : Bd)
    (h : from_fen_board s = some bd) : bd.length = 64 := by
  unfold from_fen_board at h
  by_cases hl : (decChars ((splitOnCh '/' s).reverse.flatten) []).length = 64
  · rw [if_pos hl] at h
    injection h with h2
    rw [← h2]
    exact hl
  · rw [if_neg hl] at h
    exact absurd h (by simp)

theorem splitOnCh_ne_nil (sep : Char) (s : List Char) : splitOnCh sep s ≠ [] := by
  cases s with
  | nil => simp [splitOnCh]
  | cons c cs =>
    unfold splitOnCh
    rcases splitOnCh sep cs with _ | ⟨h0, t0⟩
    · simp
    · dsimp only
      split <;> simp

theorem splitOnCh_nosep (sep : Char) (a : List Char) (h : sep ∉ a) :
    splitOnCh sep a = [a] := by
  induction a with
  | nil => rfl
  | cons c cs ih =>
    unfold splitOnCh
    rw [ih (fun hm => h (List.mem_cons_of_mem _ hm))]
    dsimp only
    rw [if_neg (fun he => h (by rw [he]; exact List.mem_cons_self _ _))]

theorem splitOnCh_append (sep : Char) (a rest : List Char) (h : sep ∉ a) :
    splitOnCh sep (a ++ sep :: rest) = a :: splitOnCh sep rest := by
  induction a with
  | nil =>
    show splitOnCh sep (sep :: rest) = [] :: splitOnCh sep rest
    conv_lhs => unfold splitOnCh
    rcases hs : splitOnCh sep rest with _ | ⟨h0, t0⟩
    · exact absurd hs (splitOnCh_ne_nil sep rest)
    · dsimp only
      rw [if_pos rfl]
  | cons c cs ih =>
    show splitOnCh sep (c :: (cs ++ sep :: rest)) = (c :: cs) :: splitOnCh sep rest
    conv_lhs => unfold splitOnCh
    rw [ih (fun hm => h (List.mem_cons_of_mem _ hm))]
    dsimp only
    rw [if_neg (fun he => h (by rw [he]; exact List.mem_cons_self _ _))]

theorem splitOnCh_joinSl (rows : List (List Char)) (hne : rows ≠ [])
    (h : ∀ r ∈ rows, '/' ∉ r) : splitOnCh '/' (joinSl rows) = rows := by
  induction rows with
  | nil => exact absurd rfl hne
  | cons r rs ih =>
    cases rs with
    | nil => exact splitOnCh_nosep '/' r (h r (by simp))
    | cons r2 rs2 =>
      show splitOnCh '/' (r ++ '/' :: joinSl (r2 :: rs2)) = r :: r2 :: rs2
      rw [splitOnCh_append '/' r _ (h r (by simp))]
      rw [ih (by simp) (fun rr hrr => h rr (List.mem_cons_of_mem _ hrr))]

theorem encCells_chars (cells : List (Option Piece)) (n : Nat) (c : Char)
    (hn : n + cells.length ≤ 8) (hc : c ∈ encCells cells n) :
    (∃ k, k < 10 ∧ c = digitChar k) ∨ (∃ p, c = Piece.to_letter p) := by
  induction cells generalizing n with
  | nil =>
    unfold encCells at hc
    by_cases h0 : n = 0
    · rw [if_pos h0] at hc
      simp at hc
    · rw [if_neg h0] at hc
      rw [List.mem_singleton] at hc
      exact Or.inl ⟨n, by omega, hc⟩
  | cons o cs ih =>
    rcases o with _ | p
    · unfold encCells at hc
      exact ih (n+1) (by simp at hn ⊢; omega) hc
    · unfold encCells at hc
      rcases List.mem_append.mp hc with h1 | h2
      · by_cases h0 : n = 0
        · rw [if_pos h0] at h1
          simp at h1
        · rw [if_neg h0] at h1
          rw [List.mem_singleton] at h1
          exact Or.inl ⟨n, by simp at hn; omega, h1⟩
      · rcases List.mem_cons.mp h2 with h3 | h4
        · exact Or.inr ⟨p, h3⟩
        · exact ih 0 (by simp at hn ⊢; omega) h4

theorem encCells_no_slash (cells : List (Option Piece)) (n : Nat)
    (hn : n + cells.length ≤ 8) : '/' ∉ encCells cells n := by
  intro hc
  rcases encCells_chars cells n _ hn hc with ⟨k, hk, he⟩ | ⟨p, he⟩
  · exact digitChar_ne_slash hk he.symm
  · exact toLetter_ne_slash p he.symm

theorem encCells_no_space (cells : List (Option Piece)) (n : Nat)
    (hn : n + cells.length ≤ 8) : ' ' ∉ encCells cells n := by
  intro hc
  rcases encCells_chars cells n _ hn hc with ⟨k, hk, he⟩ | ⟨p, he⟩
  · exact digitChar_ne_space hk he.symm
  · exact toLetter_ne_space p he.symm

theorem decChars_encCells (cells : List (Option Piece)) (n : Nat) (rest : List Char)
    (acc : List (Option Piece)) (hn : n + cells.length ≤ 8) :
    decChars (encCells cells n ++ rest) acc =
      decChars rest (acc ++ List.replicate n Option.none ++ cells) := by
  induction cells generalizing n acc with
  | nil =>
    unfold encCells
    by_cases h0 : n = 0
    · subst h0
      simp
    · rw [if_neg h0]
      show decChars (digitChar n :: rest) acc = _
      rw [show decChars (digitChar n :: rest) acc =
            if (digitChar n).isDigit
            then decChars rest (acc ++ List.replicate ((digitChar n).toNat - 48) Option.none)
            else decChars rest (acc ++ [Piece.from_letter (digitChar n)]) from rfl]
      rw [if_pos (isDigit_digitChar (by omega)), toNat_digitChar (by omega)]
      simp
  | cons o cs ih =>
    rcases o with _ | p
    · show decChars (encCells cs (n+1) ++ rest) acc = _
      rw [ih (n+1) acc (by simp at hn ⊢; omega)]
      rw [show List.replicate (n+1) (Option.none : Option Piece) =
            List.replicate n Option.none ++ [Option.none] from List.replicate_succ' ..]
      simp [List.append_assoc]
    · unfold encCells
      have hlet : decChars (Piece.to_letter p :: (encCells cs 0 ++ rest))
          (acc ++ List.replicate n Option.none) =
          decChars rest (acc ++ List.replicate n Option.none ++ (some p :: cs)) := by
        rw [show decChars (Piece.to_letter p :: (encCells cs 0 ++ rest))
              (acc ++ List.replicate n Option.none) =
              if (Piece.to_letter p).isDigit
              then decChars (encCells cs 0 ++ rest)
                ((acc ++ List.replicate n Option.none) ++
                  List.replicate ((Piece.to_letter p).toNat - 48) Option.none)
              else decChars (encCells cs 0 ++ rest)
                ((acc ++ List.replicate n Option.none) ++
                  [Piece.from_letter (Piece.to_letter p)]) from rfl]
        rw [if_neg (by rw [toLetter_not_digit]; simp), fromLetter_toLetter]
        rw [ih 0 _ (by simp at hn ⊢; omega)]
        simp [List.append_assoc]
      by_cases h0 : n = 0
      · rw [if_pos h0]
        subst h0
        simp only [List.replicate_zero, List.append_nil] at hlet
        simp only [List.nil_append, List.cons_append, List.append_assoc, List.replicate_zero,
          List.append_nil]
        exact hlet
      · rw [if_neg h0]
        show decChars (digitChar n :: (Piece.to_letter p :: (encCells cs 0 ++ rest))) acc = _
        rw [show decChars (digitChar n :: (Piece.to_letter p :: (encCells cs 0 ++ rest))) acc =
              if (digitChar n).isDigit
              then decChars (Piece.to_letter p :: (encCells cs 0 ++ rest))
                (acc ++ List.replicate ((digitChar n).toNat - 48) Option.none)
              else decChars (Piece.to_letter p :: (encCells cs 0 ++ rest))
                (acc ++ [Piece.from_letter (digitChar n)]) from rfl]
        have hnlt : n < 10 := by simp at hn; omega
        rw [if_pos (isDigit_digitChar hnlt), toNat_digitChar hnlt]
        rw [show n + 48 - 48 = n from by omega]
        exact hlet

theorem from_fen_board_into (b : Bd) (hb : b.length = 64) :
    from_fen_board (into_fen_board b) = some b := by
  have hsplit : splitOnCh '/' (into_fen_board b) =
      [encCells ((b.drop 56).take 8) 0, encCells ((b.drop 48).take 8) 0,
       encCells ((b.drop 40).take 8) 0, encCells ((b.drop 32).take 8) 0,
       encCells ((b.drop 24).take 8) 0, encCells ((b.drop 16).take 8) 0,
       encCells ((b.drop 8).take 8) 0, encCells ((b.drop 0).take 8) 0] := by
    rw [show into_fen_board b = joinSl
      [encCells ((b.drop 56).take 8) 0, encCells ((b.drop 48).take 8) 0,
       encCells ((b.drop 40).take 8) 0, encCells ((b.drop 32).take 8) 0,
       encCells ((b.drop 24).take 8) 0, encCells ((b.drop 16).take 8) 0,
       encCells ((b.drop 8).take 8) 0, encCells ((b.drop 0).take 8) 0] from rfl]
    refine splitOnCh_joinSl _ (by simp) ?_
    intro r hr
    simp only [List.mem_cons, List.not_mem_nil, or_false] at hr
    rcases hr with h|h|h|h|h|h|h|h <;> subst h <;>
      exact encCells_no_slash _ 0 (by simpa using List.length_take_le 8 _)
  have hflat : (splitOnCh '/' (into_fen_board b)).reverse.flatten =
      encCells ((b.drop 0).take 8) 0 ++ (encCells ((b.drop 8).take 8) 0 ++
      (encCells ((b.drop 16).take 8) 0 ++ (encCells ((b.drop 24).take 8) 0 ++
      (encCells ((b.drop 32).take 8) 0 ++ (encCells ((b.drop 40).take 8) 0 ++
      (encCells ((b.drop 48).take 8) 0 ++ (encCells ((b.drop 56).take 8) 0 ++
        []))))))) := by
    rw [hsplit]
    rfl
  have hgoal : from_fen_board (into_fen_board b) =
      if (decChars ((splitOnCh '/' (into_fen_board b)).reverse.flatten) []).length = 64
      then some (decChars ((splitOnCh '/' (into_fen_board b)).reverse.flatten) [])
      else Option.none := rfl
  have hle : ∀ k : Nat, 0 + ((b.drop k).take 8).length ≤ 8 := fun k => by
    simpa using List.length_take_le 8 _
  rw [hgoal, hflat]
  rw [decChars_encCells _ 0 _ [] (hle 0), decChars_encCells _ 0 _ _ (hle 8),
      decChars_encCells _ 0 _ _ (hle 16), decChars_encCells _ 0 _ _ (hle 24),
      decChars_encCells _ 0 _ _ (hle 32), decChars_encCells _ 0 _ _ (hle 40),
      decChars_encCells _ 0 _ _ (hle 48), decChars_encCells _ 0 _ _ (hle 56)]
  simp only [decChars, List.replicate_zero, List.append_nil, List.nil_append,
    List.append_assoc]
  have hchunk : ∀ k m : Nat, m = k + 8 →
      (b.drop k).take 8 ++ b.drop m = b.drop k := by
    intro k m hm
    subst hm
    have h1 := List.take_append_drop 8 (b.drop k)
    rw [List.drop_drop] at h1
    exact h1
  have h56 : (b.drop 56).take 8 = b.drop 56 :=
    List.take_of_length_le (by rw [List.length_drop, hb]; try omega)
  have hcat : (b.drop 0).take 8 ++ ((b.drop 8).take 8 ++ ((b.drop 16).take 8 ++
      ((b.drop 24).take 8 ++ ((b.drop 32).take 8 ++ ((b.drop 40).take 8 ++
      ((b.drop 48).take 8 ++ (b.drop 56).take 8)))))) = b := by
    rw [h56, hchunk 48 56 (by omega), hchunk 40 48 (by omega),
        hchunk 32 40 (by omega), hchunk 24 32 (by omega), hchunk 16 24 (by omega),
        hchunk 8 16 (by omega), hchunk 0 8 (by omega), List.drop_zero]
  rw [hcat, if_pos hb]

theorem joinSl_chars (rows : List (List Char)) (c : Char) (hc : c ∈ joinSl rows) :
    c = '/' ∨ ∃ r, r ∈ rows ∧ c ∈ r := by
  induction rows with
  | nil => simp [joinSl] at hc
  | cons r rs ih =>
    cases rs with
    | nil => exact Or.inr ⟨r, by simp, hc⟩
    | cons r2 rs2 =>
      rcases List.mem_append.mp hc with h1 | h2
      · exact Or.inr ⟨r, by simp, h1⟩
      · rcases List.mem_cons.mp h2 with h3 | h4
        · exact Or.inl h3
        · rcases ih h4 with h5 | ⟨rr, hrr, hcr⟩
          · exact Or.inl h5
          · exact Or.inr ⟨rr, List.mem_cons_of_mem _ hrr, hcr⟩

theorem into_fen_board_no_space (b : Bd) : ' ' ∉ into_fen_board b := by
  intro hc
  rcases joinSl_chars _ _ hc with h | ⟨r, hr, hcr⟩
  · exact absurd h (by decide)
  · rcases List.mem_map.mp hr with ⟨y, hmem, hy⟩
    subst hy
    exact encCells_no_space _ 0 (by simpa using List.length_take_le 8 _) hcr

theorem turnChars_no_space (c : Color) : ' ' ∉ turnChars c := by
  cases c <;> decide

theorem castleChars_no_space (c : Castle) : ' ' ∉ castleChars c := by
  rcases c with ⟨wk, wq, bk, bq⟩
  cases wk <;> cases wq <;> cases bk <;> cases bq <;> decide

theorem epChars_no_space (ep : Option EnPassant) : ' ' ∉ epChars ep := by
  rcases ep with _ | e
  · decide
  · cases e <;> decide

theorem parseCastle_castleChars (c : Castle) :
    parseCastle (castleChars c) Castle.none = c := by
  rcases c with ⟨wk, wq, bk, bq⟩
  cases wk <;> cases wq <;> cases bk <;> cases bq <;> decide

theorem parseEpField_epChars (ep : Option EnPassant) :
    parseEpField (epChars ep) = some ep := by
  rcases ep with _ | e
  · decide
  · cases e <;> decide

theorem turnChars_roundtrip (c : Color) :
    (if turnChars c = ['w'] then Color.White else Color.Black) = c := by
  cases c <;> decide

theorem splitOnCh_as_fen (g : Game) :
    splitOnCh ' ' (as_fen g) =
      [into_fen_board g.board, turnChars g.turn, castleChars g.castle,
       epChars g.en_passant, natDigits g.hm_clock, natDigits g.fm_clock] := by
  unfold as_fen
  simp only [List.append_assoc, List.cons_append]
  rw [splitOnCh_append ' ' _ _ (into_fen_board_no_space g.board),
      splitOnCh_append ' ' _ _ (turnChars_no_space g.turn),
      splitOnCh_append ' ' _ _ (castleChars_no_space g.castle),
      splitOnCh_append ' ' _ _ (epChars_no_space g.en_passant),
      splitOnCh_append ' ' _ _ (natDigits_no_space g.hm_clock),
      splitOnCh_nosep ' ' _ (natDigits_no_space g.fm_clock)]

theorem from_fen_as_fen (g : Game) (hb : g.board.length = 64)
    (hhm : g.hm_clock ≤ 255) (hfm : g.fm_clock ≤ 65535) :
    from_fen (as_fen g) = some g := by
  have h1 : from_fen (as_fen g) =
      match parseEpField (epChars g.en_passant) with
      | Option.none => Option.none
      | some en_p =>
        match from_fen_board (into_fen_board g.board) with
        | Option.none => Option.none
        | some bd =>
          match parseNatBound 255 (natDigits g.hm_clock) with
          | Option.none => Option.none
          | some hm =>
            match parseNatBound 65535 (natDigits g.fm_clock) with
            | Option.none => Option.none
            | some fm =>
              some ⟨bd, en_p, parseCastle (castleChars g.castle) Castle.none,
                    (if turnChars g.turn = ['w'] then Color.White else Color.Black),
                    hm, fm⟩ := by
    unfold from_fen
    rw [splitOnCh_as_fen g]
    rfl
  rw [h1, parseEpField_epChars, from_fen_board_into g.board hb,
      parseNatBound_natDigits 255 _ hhm, parseNatBound_natDigits 65535 _ hfm]
  dsimp only
  rw [parseCastle_castleChars, turnChars_roundtrip]

/-- C6 (counterexample): a board field with the unrecognized letter `x`
does *not* fail: `Piece::from_letter` returns an `Option` that is pushed
as-is, so `x` becomes an empty square and the field still resolves to 64
squares. -/
theorem C6_counterexample :
    (from_fen "x7/8/8/8/8/8/8/8 w - - 0 1".toList).isSome = true ∧
    ((from_fen "x7/8/8/8/8/8/8/8 w - - 0 1".toList).getD emptyGame).board.get 0 =
      Option.none := by
  exact ⟨by decide, by decide⟩

/-- C6 (amended): `from_fen` yields `none` exactly when fewer than four
space-separated fields are present, or one of the four failure points
fails: the board field does not decode to exactly 64 squares
(unrecognized piece letters decode to *empty squares*, they do not fail),
the en-passant field is neither `-` nor at least two characters, or a
present clock field does not parse as `u8` / `u16`.  Nothing is ever
partially populated: the result is a complete game or `none`. -/
theorem C6_from_fen_failure (s : List Char) :
    from_fen s = Option.none ↔
      match splitOnCh ' ' s with
      | board :: _ :: _ :: epf :: rest =>
          from_fen_board board = Option.none ∨
          parseEpField epf = Option.none ∨
          parseNatBound 255 (hmFieldOf rest) = Option.none ∨
          parseNatBound 65535 (fmFieldOf rest) = Option.none
      | _ => True := by
  unfold from_fen
  rcases hsp : splitOnCh ' ' s with _ | ⟨b0, _ | ⟨t0, _ | ⟨c0, _ | ⟨e0, rest⟩⟩⟩⟩ <;>
    dsimp only
  · simp
  · simp
  · simp
  · simp
  · rcases hep : parseEpField e0 with _ | en_p <;> dsimp only
    · simp
    · rcases hfb : from_fen_board b0 with _ | bd <;> dsimp only
      · simp
      · rcases hm : parseNatBound 255 (hmFieldOf rest) with _ | hm0 <;> dsimp only
        · simp
        · rcases hf : parseNatBound 65535 (fmFieldOf rest) with _ | fm0 <;> dsimp only
          · simp
          · simp

/-- C6 (witness): a record whose board field decodes to 10 squares fails,
via `C6_from_fen_failure`. -/
theorem C6_witness :
    from_fen "xx/8 w - -".toList = Option.none :=
  (C6_from_fen_failure "xx/8 w - -".toList).mpr (Or.inl (by decide))

theorem eq_kingOf_of (p : Piece) (c : Color) (h1 : p.color = c)
    (h2 : p = Piece.WKing ∨ p = Piece.BKing) : p = kingOf c := by
  cases c <;> rcases h2 with h2 | h2 <;> subst h2 <;>
    first
    | rfl
    | exact absurd h1 (by decide)

theorem kingFree_forall {c : Color} {b : Bd} (h : kingFree c b = true) :
    ∀ o ∈ b, o ≠ some (kingOf c) := by
  intro o ho
  exact of_decide_eq_true (List.all_eq_true.mp h o ho)

theorem kingFree_get {c : Color} {b : Bd} (h : kingFree c b = true) (j : Nat) :
    b.get j ≠ some (kingOf c) := by
  intro hg
  exact (kingFree_forall h _ (mem_of_bget b j _ hg)) rfl

theorem kingFree_set {c : Color} (b : Bd) (i : Nat) (v : Option Piece)
    (h : kingFree c b = true) (hv : v ≠ some (kingOf c)) :
    kingFree c (b.set i v) = true := by
  unfold kingFree at h ⊢
  rw [List.all_eq_true] at h ⊢
  intro o ho
  rcases List.mem_or_eq_of_mem_set ho with hmem | heq
  · exact h o hmem
  · subst heq
    exact decide_eq_true hv

theorem from_promotion_ne_king (pr : Promotion) (c1 c2 : Color) :
    some (Piece.from_promotion pr c1) ≠ some (kingOf c2) := by
  cases pr <;> cases c1 <;> cases c2 <;> decide

theorem find_king_aux_none (player : Color) (l : List (Option Piece)) (i : Nat)
    (h : ∀ o ∈ l, o ≠ some (kingOf player)) :
    find_king_aux player l i = Option.none := by
  induction l generalizing i with
  | nil => rfl
  | cons o rest ih =>
    unfold find_king_aux
    rcases o with _ | p
    · dsimp only
      exact ih _ (fun o ho => h o (List.mem_cons_of_mem _ ho))
    · dsimp only
      rw [if_neg ?noking]
      · exact ih _ (fun o ho => h o (List.mem_cons_of_mem _ ho))
      case noking =>
        intro hp
        apply h (some p) (List.mem_cons_self _ _)
        rw [eq_kingOf_of p player hp.1 hp.2]

theorem muPawnEp_kingFree {c : Color} (piece : Piece) (fr t : Nat) (g : Game)
    (h : kingFree c g.board = true) :
    kingFree c (muPawnEp piece fr t g).board = true := by
  unfold muPawnEp
  split
  · dsimp only
    split
    all_goals
      split
      · split
        · exact kingFree_set _ _ _ h (by simp)
        · exact h
      · exact h
  · exact h

theorem muBoard_kingFree {c : Color} (piece : Piece) (fr t : Nat)
    (promo : Option Promotion) (g : Game) (h : kingFree c g.board = true) :
    kingFree c (muBoard piece fr t promo g).board = true := by
  have hcastle : ∀ rookFrom rookTo : Nat,
      kingFree c (((g.board.set t (g.board.get fr)).set rookTo
        ((g.board.set t (g.board.get fr)).get rookFrom)).set rookFrom Option.none) = true := by
    intro rookFrom rookTo
    apply kingFree_set
    · apply kingFree_set
      · exact kingFree_set _ _ _ h (kingFree_get h fr)
      · exact kingFree_get (kingFree_set _ _ _ h (kingFree_get h fr)) _
    · simp
  unfold muBoard
  rcases promo with _ | pr <;> dsimp only
  · split
    · dsimp only
      exact hcastle _ _
    · exact kingFree_set _ _ _ h (kingFree_get h fr)
  · split
    · exact kingFree_set _ _ _ h (from_promotion_ne_king pr g.turn c)
    · split
      · dsimp only
        exact hcastle _ _
      · exact kingFree_set _ _ _ h (kingFree_get h fr)

theorem move_unchecked_kingFree {c : Color} (g : Game) (fr t : Nat)
    (promo : Option Promotion) (h : kingFree c g.board = true) :
    kingFree c (move_unchecked g fr t promo).board = true := by
  unfold move_unchecked
  split
  · exact h
  · show kingFree c ((muBoard _ fr t promo
      (muCapClock t (muRookCapRights t (muCastleRights fr
        (muPawnEp _ fr t (muFm g)))))).board.set fr Option.none) = true
    apply kingFree_set
    · apply muBoard_kingFree
      rw [muCapClock_board, muRookCapRights_board, muCastleRights_board]
      apply muPawnEp_kingFree
      rw [muFm_board]
      exact h
    · simp

/-- C10: every check, checkmate, stalemate, and full-legality query
carries the unstated precondition that the board holds a king of the
queried color: with no king of color `c` on the board, `find_king`
returns `none` and `is_in_check`/`is_in_checkmate` abort (modelled as
`none`), `is_stalemate` inherits this through its initial `is_in_check`
call, and `is_legal_move` inherits it through the post-move check test
whenever the pseudo-legal phase accepts the move. -/
theorem C10_missing_king_aborts (g : Game) (c : Color)
    (h : kingFree c g.board = true) :
    find_king g c = Option.none ∧
    is_in_check g c = Option.none ∧
    is_in_checkmate g c = Option.none ∧
    (g.turn = c → is_stalemate g = Option.none) ∧
    (g.turn = c → ∀ fr t promo,
      is_legal_checkless g fr t promo true = some MoveResult.Valid →
      is_legal_move g fr t promo = Option.none) := by
  have hfk : find_king g c = Option.none :=
    find_king_aux_none c g.board 0 (kingFree_forall h)
  have hic : is_in_check g c = Option.none := by
    unfold is_in_check
    rw [hfk]
    rfl
  refine ⟨hfk, hic, ?_, ?_, ?_⟩
  · unfold is_in_checkmate
    rw [hfk]
  · intro ht
    unfold is_stalemate
    rw [ht, hic]
  · intro ht fr t promo hcl
    unfold is_legal_move
    rw [hcl]
    dsimp only
    rw [if_neg (fun hcon => hcon rfl)]
    have hicn : is_in_check (move_unchecked g fr t promo) c = Option.none := by
      unfold is_in_check
      have : find_king (move_unchecked g fr t promo) c = Option.none :=
        find_king_aux_none c _ 0 (kingFree_forall (move_unchecked_kingFree g fr t promo h))
      rw [this]
      rfl
    rw [ht, hicn]

/-- C10 (witness): a board holding a White rook and the Black king but no
White king, with White to move and a pseudo-legal rook move available,
via `C10_missing_king_aborts` at a concrete position. -/
theorem C10_witness :
    kingFree Color.White (mkGame "7k/8/8/8/8/8/8/R7 w - - 0 1").board = true ∧
    (find_king (mkGame "7k/8/8/8/8/8/8/R7 w - - 0 1") Color.White = Option.none ∧
     is_in_check (mkGame "7k/8/8/8/8/8/8/R7 w - - 0 1") Color.White = Option.none ∧
     is_in_checkmate (mkGame "7k/8/8/8/8/8/8/R7 w - - 0 1") Color.White = Option.none ∧
     ((mkGame "7k/8/8/8/8/8/8/R7 w - - 0 1").turn = Color.White →
       is_stalemate (mkGame "7k/8/8/8/8/8/8/R7 w - - 0 1") = Option.none) ∧
     ((mkGame "7k/8/8/8/8/8/8/R7 w - - 0 1").turn = Color.White → ∀ fr t promo,
       is_legal_checkless (mkGame "7k/8/8/8/8/8/8/R7 w - - 0 1") fr t promo true =
         some MoveResult.Valid →
       is_legal_move (mkGame "7k/8/8/8/8/8/8/R7 w - - 0 1") fr t promo = Option.none)) :=
  ⟨by decide, C10_missing_king_aborts (mkGame "7k/8/8/8/8/8/8/R7 w - - 0 1")
    Color.White (by decide)⟩

/-- C9: when the side to move attempts kingside castling (king two files
toward the h-side rook, evaluated by the source from the home square) and
the king's transit square is attacked — the source's own test:
speculatively stepping the king one square toward the rook leaves the
mover in check — `is_legal_move` returns `Illegal`, with no assumption at
all about the destination square's safety. -/
theorem C9_castle_through_attack (g : Game) (c : Color) (promo : Option Promotion)
    (h1 : g.turn = c)
    (h2 : g.board.get (match c with | Color.White => 4 | Color.Black => 60) =
      some (kingOf c))
    (h3 : is_in_check (move_unchecked g
            (match c with | Color.White => 4 | Color.Black => 60)
            (match c with | Color.White => 5 | Color.Black => 61) Option.none)
          g.turn = some true) :
    is_legal_move g (match c with | Color.White => 4 | Color.Black => 60)
      (match c with | Color.White => 6 | Color.Black => 62) promo =
      some MoveResult.Illegal := by
  cases c
  · obtain ⟨bc, hchk⟩ := is_in_check_isSome g Color.White 4 h2
    have hcl : is_legal_checkless g 4 6 promo true = some MoveResult.Illegal :=
      mcheckless_wcastle is_in_check g promo bc h1 h2 (by rw [h1]; exact hchk) h3
    show is_legal_move g 4 6 promo = some MoveResult.Illegal
    unfold is_legal_move
    rw [hcl]
    dsimp only
    rw [if_pos (by decide)]
  · obtain ⟨bc, hchk⟩ := is_in_check_isSome g Color.Black 60 h2
    have hcl : is_legal_checkless g 60 62 promo true = some MoveResult.Illegal :=
      mcheckless_bcastle is_in_check g promo bc h1 h2 (by rw [h1]; exact hchk) h3
    show is_legal_move g 60 62 promo = some MoveResult.Illegal
    unfold is_legal_move
    rw [hcl]
    dsimp only
    rw [if_pos (by decide)]

/-- C9 (witness): White king e1, rook h1, castling right available, Black
rook on f8 attacking the transit square f1 while g1 is unattacked —
kingside castling is `Illegal`, via `C9_castle_through_attack`. -/
theorem C9_witness :
    is_legal_move (mkGame "k4r2/8/8/8/8/8/8/4K2R w K - 0 1") 4 6 Option.none =
      some MoveResult.Illegal :=
  C9_castle_through_attack (mkGame "k4r2/8/8/8/8/8/8/4K2R w K - 0 1")
    Color.White Option.none (by decide) (by decide) (by decide)

theorem pawn_lost_pos_lt (e : EnPassant) : e.pawn_lost_pos < 64 := by
  cases e <;> decide

theorem muBoardChecked_sound (piece : Piece) (fr t : Nat) (promo : Option Promotion)
    (g g2 : Game) (h : muBoardChecked piece fr t promo g = some g2) :
    muBoard piece fr t promo g = g2 := by
  unfold muBoardChecked at h
  split at h
  · split at h <;> split at h
    · exact Option.some.inj h
    · exact absurd h (by simp)
    · exact Option.some.inj h
    · exact absurd h (by simp)
  · exact Option.some.inj h

theorem move_unchecked_checked_sound (g0 : Game) (fr t : Nat)
    (promo : Option Promotion) (g2 : Game)
    (h : move_unchecked_checked g0 fr t promo = some g2) :
    move_unchecked g0 fr t promo = g2 := by
  unfold move_unchecked_checked at h
  unfold move_unchecked
  by_cases hf : fr ≤ 63
  · rw [if_pos hf] at h
    rcases hp : g0.board.get fr with _ | piece
    · rw [hp] at h
      dsimp only at h
      exact Option.some.inj h
    · rw [hp] at h
      dsimp only at h ⊢
      by_cases ht : t ≤ 63
      · rw [if_pos ht] at h
        rcases hm : muBoardChecked piece fr t promo
            (muCapClock t (muRookCapRights t (muCastleRights fr
              (muPawnEp piece fr t (muFm g0))))) with _ | g6
        · rw [hm] at h
          exact absurd h (by simp)
        · rw [hm] at h
          dsimp only at h
          rw [muBoardChecked_sound _ _ _ _ _ _ hm]
          exact Option.some.inj h
      · rw [if_neg ht] at h
        exact absurd h (by simp)
  · rw [if_neg hf] at h
    exact absurd h (by simp)

/-- C8 (counterexample): two failures of the claim's unconditional
wording.  The half-move clock is the 8-bit `hm_clock`: at its maximum 255
a quiet king move completes (`move_unchecked_checked` returns `some`) yet
wraps the clock to 0 instead of increasing it by one.  And a two-file
king move from c1 (square 2 — no castling geometry, but `move_unchecked`
never checks that) drives the rook-relocation index `from - 4` below
zero, so the program panics on the board index instead of producing any
post-move clock: `move_unchecked_checked` returns `none`. -/
theorem C8_counterexample :
    (mkGame "4k3/8/8/8/8/8/8/4K3 w - - 255 1").hm_clock = 255 ∧
    move_unchecked_checked (mkGame "4k3/8/8/8/8/8/8/4K3 w - - 255 1") 4 12 Option.none =
      some (move_unchecked (mkGame "4k3/8/8/8/8/8/8/4K3 w - - 255 1") 4 12 Option.none) ∧
    ¬ (move_unchecked (mkGame "4k3/8/8/8/8/8/8/4K3 w - - 255 1") 4 12 Option.none).hm_clock =
        (mkGame "4k3/8/8/8/8/8/8/4K3 w - - 255 1").hm_clock + 1 ∧
    move_unchecked_checked (mkGame "4k3/8/8/8/8/8/8/2K5 w - - 0 1") 2 0 Option.none =
      Option.none := by
  exact ⟨by decide, by decide, by decide, by decide⟩

/-- C8 (amended): whenever move application *completes* —
`move_unchecked_checked = some g2`, i.e. no board index panics: origin
and destination on the board and any castling rook relocation in bounds —
on a non-empty origin with the (8-bit) half-move clock below 255, the
resulting clock is 0 when the moved piece is a pawn or the destination
held a piece, and otherwise exactly one greater; and the board keeps its
64 one-piece slots, so no square can hold two pieces. -/
theorem C8_half_move_clock (g : Game) (fr t : Nat) (promo : Option Promotion)
    (pc : Piece) (g2 : Game)
    (hp : g.board.get fr = some pc) (hb : g.hm_clock < 255)
    (hdone : move_unchecked_checked g fr t promo = some g2) :
    g2.hm_clock =
      (if pc = Piece.BPawn ∨ pc = Piece.WPawn ∨ (g.board.get t).isSome then 0
       else g.hm_clock + 1) ∧
    g2.board.length = g.board.length := by
  obtain rfl := move_unchecked_checked_sound g fr t promo g2 hdone
  constructor
  · unfold move_unchecked
    split
    · next heq => rw [hp] at heq; exact absurd heq (by simp)
    · next piece heq =>
      rw [hp] at heq
      obtain rfl : pc = piece := by injection heq
      show (muBoard pc fr t promo
        (muCapClock t (muRookCapRights t (muCastleRights fr
          (muPawnEp pc fr t (muFm g)))))).hm_clock = _
      rw [muBoard_hm, muCapClock_hm, muRookCapRights_board, muCastleRights_board,
          muPawnEp_bget_t, muFm_board, muRookCapRights_hm, muCastleRights_hm,
          muPawnEp_hm, muFm_hm]
      have hmod : (g.hm_clock + 1) % 256 = g.hm_clock + 1 :=
        Nat.mod_eq_of_lt (by omega)
      rw [hmod]
      by_cases hpw : pc = Piece.BPawn ∨ pc = Piece.WPawn <;>
        by_cases hcap : (g.board.get t).isSome = true <;>
          simp [hpw, hcap]
  · unfold move_unchecked
    split
    · rfl
    · next piece heq =>
      show (Bd.set (muBoard piece fr t promo
        (muCapClock t (muRookCapRights t (muCastleRights fr
          (muPawnEp piece fr t (muFm g)))))).board fr Option.none).length = _
      rw [blength_set, muBoard_length, muCapClock_board, muRookCapRights_board,
          muCastleRights_board, muPawnEp_length, muFm_board]

/-- C1: whenever the pseudo-legal evaluation with king capture forbidden
is `Valid` and the full evaluator completes (`some r`, i.e. the needed
kings are present — claim C10 records that precondition), the move is
rejected as `Illegal` exactly when the speculative application leaves the
mover's own king in check, and otherwise `r` is one of the Valid-family
outcomes (`is_ok`). -/
theorem C1_full_legality_wraps_pseudo_legal (g : Game) (fr t : Nat)
    (promo : Option Promotion) (r : MoveResult)
    (hc : is_legal_checkless g fr t promo true = some MoveResult.Valid)
    (h : is_legal_move g fr t promo = some r) :
    (is_in_check (move_unchecked g fr t promo) g.turn = some true →
      r = MoveResult.Illegal) ∧
    (is_in_check (move_unchecked g fr t promo) g.turn = some false →
      r.is_ok = true) := by
  unfold is_legal_move at h
  rw [hc] at h
  dsimp only at h
  rw [if_neg (fun hcon => hcon rfl)] at h
  rcases hic : is_in_check (move_unchecked g fr t promo) g.turn with _ | (_ | _)
  · rw [hic] at h
    dsimp only at h
    exact absurd h (by simp)
  · rw [hic] at h
    dsimp only at h
    refine ⟨fun htrue => absurd htrue (by simp), fun _ => ?_⟩
    rcases hd : is_draw (move_unchecked g fr t promo) with _ | (_ | _) <;>
      rw [hd] at h <;> dsimp only at h
    · exact absurd h (by simp)
    · rcases ho : is_in_check (move_unchecked g fr t promo) g.turn.opp with _ | (_ | _) <;>
        rw [ho] at h <;> dsimp only at h
      · exact absurd h (by simp)
      · rcases hs : is_stalemate (move_unchecked g fr t promo) with _ | (_ | _) <;>
          rw [hs] at h <;> dsimp only at h
        · exact absurd h (by simp)
        · injection h with h2
          rw [← h2]
          rfl
        · injection h with h2
          rw [← h2]
          rfl
      · rcases hcm : is_in_checkmate (move_unchecked g fr t promo) g.turn.opp
            with _ | (_ | _) <;> rw [hcm] at h <;> dsimp only at h
        · exact absurd h (by simp)
        · injection h with h2
          rw [← h2]
          rfl
        · injection h with h2
          rw [← h2]
          rfl
    · injection h with h2
      rw [← h2]
      rfl
  · rw [hic] at h
    dsimp only at h
    refine ⟨fun _ => ?_, fun hfalse => absurd hfalse (by simp)⟩
    injection h with h2
    exact h2.symm

/-- C1 (witness): king takes the last enemy non-king piece, leaving bare
kings — pseudo-legal `Valid`, full evaluation `Draw`, via
`C1_full_legality_wraps_pseudo_legal` at a concrete position. -/
theorem C1_witness :
    is_legal_checkless (mkGame "4k3/8/8/8/8/8/3p4/4K3 w - - 0 1") 4 11 Option.none true =
      some MoveResult.Valid ∧
    is_legal_move (mkGame "4k3/8/8/8/8/8/3p4/4K3 w - - 0 1") 4 11 Option.none =
      some MoveResult.Draw ∧
    ((is_in_check (move_unchecked (mkGame "4k3/8/8/8/8/8/3p4/4K3 w - - 0 1") 4 11 Option.none)
        (mkGame "4k3/8/8/8/8/8/3p4/4K3 w - - 0 1").turn = some true →
        MoveResult.Draw = MoveResult.Illegal) ∧
     (is_in_check (move_unchecked (mkGame "4k3/8/8/8/8/8/3p4/4K3 w - - 0 1") 4 11 Option.none)
        (mkGame "4k3/8/8/8/8/8/3p4/4K3 w - - 0 1").turn = some false →
        MoveResult.Draw.is_ok = true)) :=
  ⟨by decide, by decide,
   C1_full_legality_wraps_pseudo_legal (mkGame "4k3/8/8/8/8/8/3p4/4K3 w - - 0 1")
     4 11 Option.none MoveResult.Draw (by decide) (by decide)⟩

/-- C8 (witness): a quiet king step from a position with clock 7
completes and yields clock 8, via `C8_half_move_clock` at a concrete
position, with the completion hypothesis discharged by evaluation. -/
theorem C8_witness :
    (move_unchecked (mkGame "4k3/8/8/8/8/8/8/4K3 w - - 7 1") 4 12 Option.none).hm_clock =
      (if Piece.WKing = Piece.BPawn ∨ Piece.WKing = Piece.WPawn ∨
          ((mkGame "4k3/8/8/8/8/8/8/4K3 w - - 7 1").board.get 12).isSome then 0
       else (mkGame "4k3/8/8/8/8/8/8/4K3 w - - 7 1").hm_clock + 1) ∧
    (move_unchecked (mkGame "4k3/8/8/8/8/8/8/4K3 w - - 7 1") 4 12 Option.none).board.length =
      (mkGame "4k3/8/8/8/8/8/8/4K3 w - - 7 1").board.length :=
  C8_half_move_clock (mkGame "4k3/8/8/8/8/8/8/4K3 w - - 7 1") 4 12 Option.none
    Piece.WKing (move_unchecked (mkGame "4k3/8/8/8/8/8/8/4K3 w - - 7 1") 4 12 Option.none)
    (by decide) (by decide) (by decide)

/-- C5: for every game state `g` obtained from a successful parse
(`from_fen s = some g`), re-serialising with `as_fen` and parsing again
returns exactly `g`: `from_fen (as_fen g) = some g`.  The round trip holds
because a parsed state always has a 64-square board and clocks within the
`u8` / `u16` bounds, the run-length board encoding decodes to the same 64
squares, and the turn, castling, en-passant and clock fields each parse
back to the serialised value. -/
theorem C5_fen_roundtrip (s : List Char) (g : Game) (h : from_fen s = some g) :
    from_fen (as_fen g) = some g := by
  unfold from_fen at h
  rcases hsp : splitOnCh ' ' s with _ | ⟨b0, _ | ⟨t0, _ | ⟨c0, _ | ⟨e0, rest⟩⟩⟩⟩ <;>
    rw [hsp] at h <;> dsimp only at h
  · exact absurd h (by simp)
  · exact absurd h (by simp)
  · exact absurd h (by simp)
  · exact absurd h (by simp)
  rcases hep : parseEpField e0 with _ | en_p <;> rw [hep] at h <;> dsimp only at h
  · exact absurd h (by simp)
  rcases hbd : from_fen_board b0 with _ | bd <;> rw [hbd] at h <;> dsimp only at h
  · exact absurd h (by simp)
  rcases hhm : parseNatBound 255 (hmFieldOf rest) with _ | hm <;>
    rw [hhm] at h <;> dsimp only at h
  · exact absurd h (by simp)
  rcases hfm : parseNatBound 65535 (fmFieldOf rest) with _ | fm <;>
    rw [hfm] at h <;> dsimp only at h
  · exact absurd h (by simp)
  have hg := Option.some.inj h
  subst hg
  exact from_fen_as_fen _ (from_fen_board_length b0 bd hbd)
    (parseNatBound_le 255 _ hm hhm) (parseNatBound_le 65535 _ fm hfm)

/-- C5 (witness): the round trip at the standard initial position, via
`C5_fen_roundtrip` at its parsed game state. -/
theorem C5_witness :
    from_fen (as_fen (mkGame "rnbqkbnr/pppppppp/8/8/8/8/PPPPPPPP/RNBQKBNR w KQkq - 0 1")) =
      some (mkGame "rnbqkbnr/pppppppp/8/8/8/8/PPPPPPPP/RNBQKBNR w KQkq - 0 1") :=
  C5_fen_roundtrip
    ("rnbqkbnr/pppppppp/8/8/8/8/PPPPPPPP/RNBQKBNR w KQkq - 0 1").toList
    (mkGame "rnbqkbnr/pppppppp/8/8/8/8/PPPPPPPP/RNBQKBNR w KQkq - 0 1") (by decide)

end Chess
